import Mathlib

/-!
# Timetable: a shallow embedding of the backtracking timetable search

Sources embedded here:
* `OriginalTimetable/Timetable.cpp` (the eager search, namespace `Original`)
* `LazyTimetable/Timetable.cpp` (the stream based search, namespace `Lazy`)
* `Lib/Futures.h` (`when_all_vec`)

`int` values (slot and track counters, limits, talk identifiers, solution
counts) are modelled as `Int`.  The additions on the solution count of the lazy
program, which grows with the number of solutions, are reduced into the range of a
32-bit `int` (`wrapInt`): the count of the model is always a value of `int`, and it
is the exact count whenever the exact count fits.  An addition that does not fit is
undefined in the source, so where the exact count does not fit nothing is stated
about the count beyond its range (C5, C13).  The slot and track counters are
incremented exactly: on the runs from the initial state they stay between 0 and the
number of talks, and the transition rules stated for an arbitrary state (C16, C17)
take the incremented counter below the largest `int` 2147483647.

The recursive drivers take a `fuel : Nat` argument bounding the recursion
depth and answer `none` when it runs out; termination is proved separately
(`Original.generate_terminates`, `Lazy.lazy_generate_terminates`).
-/

namespace Timetable

/-! ## Types shared by the two programs -/

/-- A talk is an `int` identifier (`using Talk = int`). -/
abbrev Talk := Int

/-- The struct `Person`: a name and the talks the person wants to attend. -/
structure Person where
  _name : String
  _talks : List Talk

abbrev Persons := List Person

abbrev TalkList := List Talk

abbrev TimeTable := List TalkList

/-- Modelled from the spec: `TalkSet = RBTree<Talk>`; `Lib/RBTree.h` is not part of
the sources.  The spec describes a persistent ordered set with membership, union
and difference; only membership is ever observed by the search, so the set is
modelled by a finite set of talks. -/
abbrev TalkSet := Finset Talk

/-- Modelled from the spec: the range constructor `RBTree<Talk>(begin, end)` of
`Lib/RBTree.h`, the set of the elements of a list. -/
def TalkSet.ofList (l : List Talk) : TalkSet := l.toFinset

/-- Modelled from the spec: `treeUnion` of `Lib/RBTree.h`, the union of two sets. -/
def treeUnion (a b : TalkSet) : TalkSet := a ∪ b

/-- Modelled from the spec: `RBMap<Talk, TalkSet>` of `Lib/RBMap.h`, a finite map
observed through `insertWith` and `findWithDefault`; a key that was never inserted
is `none`. -/
abbrev RBMap := Talk → Option TalkSet

/-- Modelled from the spec: the empty map (default constructor of `RBMap`). -/
def RBMap.empty : RBMap := fun _ => none

/-- Modelled from the spec: `RBMap::insertWith(key, value, combine)` of `Lib/RBMap.h`:
"on key collision replaces the stored value with `combine(old, new)` rather than
overwriting". -/
def RBMap.insertWith (m : RBMap) (k : Talk) (v : TalkSet)
    (combine : TalkSet → TalkSet → TalkSet) : RBMap :=
  fun k' =>
    if k' = k then
      match m k with
      | none => some v
      | some old => some (combine old v)
    else m k'

/-- Modelled from the spec: `RBMap::findWithDefault(default, key)` of `Lib/RBMap.h`:
"find-with-default lookup returning an empty/zero value when the key is absent". -/
def RBMap.findWithDefault (m : RBMap) (dflt : TalkSet) (k : Talk) : TalkSet :=
  match m k with
  | none => dflt
  | some v => v

/-- Modelled from the spec: `List::remove1` of `Lib/List.h`, the list with one (the
first) occurrence of the element removed. -/
def remove1 (l : TalkList) (t : Talk) : TalkList := l.erase t

/-- Modelled from the spec: `List::remove` of `Lib/List.h`, the list with every
occurrence of the element removed. -/
def remove (l : TalkList) (t : Talk) : TalkList := l.filter (fun x => decide (x ≠ t))

/-- Modelled from the spec: `diff(list, set)` of the library, the elements of the
list that are not members of the set, in list order ("minus clashesWith(C)"). -/
def diff (l : TalkList) (s : TalkSet) : TalkList := l.filter (fun x => decide (x ∉ s))

/-- Modelled from the spec: `concat` of `Lib/List.h`, list concatenation. -/
def concat {α : Type} (a b : List α) : List α := a ++ b

/-- The value that an `int` holds when the exact result of an addition is `x`: `x`
reduced modulo `2^32` into the range `-2^31 .. 2^31 - 1` (two's complement, what
the usual compilers do; the C++ standard leaves signed overflow undefined). -/
def wrapInt (x : Int) : Int := (x + 2147483648) % 4294967296 - 2147483648

/-- A step of a loop whose body makes a recursive call: the body `f` runs on the
accumulator and on the result of the call; when either is `none` (the fuel ran
out) so is the outcome. -/
def lift2 {α β γ : Type} (f : α → β → γ) : Option α → Option β → Option γ
  | some a, some b => some (f a b)
  | _, _ => none

/-! ## OriginalTimetable/Timetable.cpp -/

namespace Original

/-- The function `selAccum`: pairs the head of the right list with
`concat(leftLst, rightLst.pop_front())` and recurses with the head pushed on the
front of the left list. -/
def selAccum {α : Type} : List α → List α → List (α × List α)
  | _, [] => []
  | leftLst, x :: xs => (x, concat leftLst xs) :: selAccum (x :: leftLst) xs

/-- The function `selects`. -/
def selects {α : Type} (lst : List α) : List (α × List α) := selAccum [] lst

/-- The struct `Constr` of the eager program. -/
structure Constr where
  _maxSlots : Int
  _maxTracks : Int
  _clashMap : RBMap

/-- The constructor `Constr::Constr(maxSlots, maxTracks, people)`: two nested
`forEach` loops that `insertWith` the set of the other talks of a person. -/
def Constr.new (maxSlots maxTracks : Int) (people : List Person) : Constr :=
  { _maxSlots := maxSlots
    _maxTracks := maxTracks
    _clashMap :=
      people.foldl
        (fun clashMap person =>
          (selects person._talks).foldl
            (fun clashMap p => clashMap.insertWith p.1 (TalkSet.ofList p.2) treeUnion)
            clashMap)
        RBMap.empty }

def Constr.isMaxTracks (constr : Constr) (trackNo : Int) : Bool :=
  decide (trackNo = constr._maxTracks)

def Constr.isMaxSlots (constr : Constr) (curSlotNo : Int) : Bool :=
  decide (curSlotNo = constr._maxSlots)

def Constr.clashesWith (constr : Constr) (t : Talk) : TalkSet :=
  constr._clashMap.findWithDefault ∅ t

/-- The struct `PartSlot` of the eager program. -/
structure PartSlot where
  _curTrackNo : Int
  _talksInSlot : TalkList
  _talksForSlot : TalkList

/-- The constructor `PartSlot(allTalks)`. -/
def PartSlot.new (allTalks : TalkList) : PartSlot :=
  { _curTrackNo := 0, _talksInSlot := [], _talksForSlot := allTalks }

def PartSlot.isFinished (s : PartSlot) (constr : Constr) : Bool :=
  constr.isMaxTracks s._curTrackNo

/-- The method `PartSlot::refine`: the `forEach` loop pushes each candidate on
the front of `candts`. -/
def PartSlot.refine (s : PartSlot) (constr : Constr) : List (Talk × PartSlot) :=
  (selects s._talksForSlot).foldl
    (fun candts p =>
      (p.1,
        ({ _curTrackNo := s._curTrackNo + 1
           _talksInSlot := p.1 :: s._talksInSlot
           _talksForSlot := diff p.2 (constr.clashesWith p.1) } : PartSlot)) :: candts)
    []

/-- The struct `PartSol` of the eager program. -/
structure PartSol where
  _curSlotNo : Int
  _partSlot : PartSlot
  _remainingTalks : TalkList
  _tableSoFar : TimeTable

/-- The constructor `PartSol(allTalks)`. -/
def PartSol.new (allTalks : TalkList) : PartSol :=
  { _curSlotNo := 0
    _partSlot := PartSlot.new allTalks
    _remainingTalks := allTalks
    _tableSoFar := [] }

/-- The constructor `PartSol(curSlotNo, tableSoFar, remainingTalks)`. -/
def PartSol.new3 (curSlotNo : Int) (tableSoFar : TimeTable) (remainingTalks : TalkList) :
    PartSol :=
  { _curSlotNo := curSlotNo
    _partSlot := PartSlot.new remainingTalks
    _remainingTalks := remainingTalks
    _tableSoFar := tableSoFar }

def PartSol.isFinished (s : PartSol) (constr : Constr) : Bool :=
  constr.isMaxSlots s._curSlotNo

def PartSol.getSolution (s : PartSol) : TimeTable := s._tableSoFar

/-- The method `PartSol::refine`. -/
def PartSol.refine (s : PartSol) (constr : Constr) : List PartSol :=
  if s._partSlot.isFinished constr then
    [PartSol.new3 (s._curSlotNo + 1) (s._partSlot._talksInSlot :: s._tableSoFar)
      s._remainingTalks]
  else
    (s._partSlot.refine constr).foldl
      (fun candts partSlot =>
        ({ _curSlotNo := s._curSlotNo
           _partSlot := partSlot.2
           _remainingTalks := remove1 s._remainingTalks partSlot.1
           _tableSoFar := s._tableSoFar } : PartSol) :: candts)
      []

/-- The function `generate` (instantiated at `PartSol`, `Constr`); `none` when the
fuel runs out.  The loop appends the solutions of each successor to `candts`. -/
def generate (constr : Constr) : Nat → PartSol → Option (List TimeTable)
  | 0, _ => none
  | fuel + 1, part =>
    if part.isFinished constr then
      some [part.getSolution]
    else
      (part.refine constr).foldl
        (fun candts p => lift2 (fun candts lst => candts ++ lst) candts (generate constr fuel p))
        (some [])

/-- The function `when_all_vec` of `OriginalTimetable/Timetable.cpp`, each future
taken as the value it holds: the loop moves `ftrs.back()` to the back of `lst`
until `ftrs` is empty. -/
def when_all_vec {α : Type} (ftrs : List α) : List α :=
  ftrs.reverse.foldl (fun lst f => lst ++ [f]) []

/-- The function `concatAll`. -/
def concatAll {α : Type} (xs : List (List α)) : List α :=
  xs.foldl (fun res v => res ++ v) []

/-- The function `generatePar`, each `std::async` task taken as the value it
returns; `none` when the fuel runs out. -/
def generatePar (constr : Constr) : Nat → Int → PartSol → Option (List TimeTable)
  | 0, _, _ => none
  | fuel + 1, depth, part =>
    if depth = 0 then
      generate constr (fuel + 1) part
    else if part.isFinished constr then
      some [part.getSolution]
    else
      let futResult : Option (List (List TimeTable)) :=
        (part.refine constr).foldl
          (fun futResult p =>
            lift2 (fun futResult futLst => futResult ++ [futLst]) futResult
              (generatePar constr fuel (depth - 1) p))
          (some [])
      match futResult with
      | none => none
      | some ftrs => some (concatAll (when_all_vec ftrs))

/-- The function `timeTable` of the eager program. -/
def timeTable (fuel : Nat) (persons : Persons) (allTalks : TalkList)
    (maxTracks maxSlots : Int) (isPar : Bool) : Option (List TimeTable) :=
  let constr := Constr.new maxSlots maxTracks persons
  let emptySol := PartSol.new allTalks
  if isPar then generatePar constr fuel 3 emptySol
  else generate constr fuel emptySol

end Original

/-! ## LazyTimetable/Timetable.cpp -/

namespace Lazy

/-- The struct `Constr` of the lazy program. -/
structure Constr where
  _maxSlots : Int
  _maxTracks : Int
  _clashMap : RBMap

/-- The constructor `Constr::Constr(maxSlots, maxTracks, people)` of the lazy
program: for each talk of a person, `insertWith` the set of `talks.remove(tk)`. -/
def Constr.new (maxSlots maxTracks : Int) (people : List Person) : Constr :=
  { _maxSlots := maxSlots
    _maxTracks := maxTracks
    _clashMap :=
      people.foldl
        (fun clashMap person =>
          person._talks.foldl
            (fun clashMap tk =>
              clashMap.insertWith tk (TalkSet.ofList (remove person._talks tk)) treeUnion)
            clashMap)
        RBMap.empty }

def Constr.isMaxTracks (constr : Constr) (trackNo : Int) : Bool :=
  decide (trackNo = constr._maxTracks)

def Constr.isMaxSlots (constr : Constr) (slotNo : Int) : Bool :=
  decide (slotNo = constr._maxSlots)

def Constr.clashesWith (constr : Constr) (t : Talk) : TalkSet :=
  constr._clashMap.findWithDefault ∅ t

/-- The struct `PartSol` of the lazy program. -/
structure PartSol where
  _curSlotNo : Int
  _remainingTalks : TalkList
  _tableSoFar : TimeTable

/-- The constructor `PartSol(talks)`. -/
def PartSol.new (talks : TalkList) : PartSol :=
  { _curSlotNo := 0, _remainingTalks := talks, _tableSoFar := [] }

def PartSol.removeTalk (s : PartSol) (tk : Talk) : PartSol :=
  { _curSlotNo := s._curSlotNo
    _remainingTalks := remove1 s._remainingTalks tk
    _tableSoFar := s._tableSoFar }

def PartSol.fillSlot (s : PartSol) (talks : TalkList) : PartSol :=
  { _curSlotNo := s._curSlotNo + 1
    _remainingTalks := s._remainingTalks
    _tableSoFar := talks :: s._tableSoFar }

/-- The struct `PartSlot` of the lazy program. -/
structure PartSlot where
  _curTrackNo : Int
  _talksInSlot : TalkList
  _talksForSlot : TalkList
  _partSol : PartSol

/-- The constructor `PartSlot(partSol)`. -/
def PartSlot.new (partSol : PartSol) : PartSlot :=
  { _curTrackNo := 0
    _talksInSlot := []
    _talksForSlot := partSol._remainingTalks
    _partSol := partSol }

def PartSlot.isFinished (s : PartSlot) (constr : Constr) : Bool :=
  constr.isMaxSlots s._partSol._curSlotNo

def PartSlot.getSolution (s : PartSlot) : TimeTable := s._partSol._tableSoFar

/-- The method `PartSlot::refineSlot`.  Modelled from the spec: `Stream<PartSlot>`
of `Lib/PureStream.h`, a sequence whose cells are forced one at a time, left to
right, is represented by the list of its cells in that order. -/
def PartSlot.refineSlot (s : PartSlot) : TalkList → Constr → List PartSlot
  | [], _ => []
  | tk :: candts, constr =>
    ({ _curTrackNo := s._curTrackNo + 1
       _talksInSlot := tk :: s._talksInSlot
       _talksForSlot := diff (remove1 s._talksForSlot tk) (constr.clashesWith tk)
       _partSol := s._partSol.removeTalk tk } : PartSlot) :: refineSlot s candts constr

/-- The method `PartSlot::refine` of the lazy program. -/
def PartSlot.refine (s : PartSlot) (constr : Constr) : List PartSlot :=
  if constr.isMaxTracks s._curTrackNo then
    [PartSlot.new (s._partSol.fillSlot s._talksInSlot)]
  else
    s.refineSlot s._talksForSlot constr

/-- The function `generate` of the lazy program (instantiated at `PartSlot`,
`Constr`): the `int` count of the solutions; `none` when the fuel runs out. -/
def generate (constr : Constr) : Nat → PartSlot → Option Int
  | 0, _ => none
  | fuel + 1, part =>
    if part.isFinished constr then
      some 1
    else
      (part.refine constr).foldl
        (fun candts p =>
          lift2 (fun candts n => wrapInt (candts + n)) candts (generate constr fuel p))
        (some 0)

/-- The function `when_all_vec` of `Lib/Futures.h`, each future taken as the value
it holds: the loop moves `ftrs.back()` to the front of `lst` until `ftrs` is
empty. -/
def when_all_vec {α : Type} (ftrs : List α) : List α :=
  ftrs.reverse.foldl (fun lst f => f :: lst) []

/-- The function `generatePar` of the lazy program, each `std::async` task taken
as the value it returns; `none` when the fuel runs out. -/
def generatePar (constr : Constr) : Nat → Int → PartSlot → Option Int
  | 0, _, _ => none
  | fuel + 1, depth, part =>
    if depth = 0 then
      generate constr (fuel + 1) part
    else if part.isFinished constr then
      some 1
    else
      let futResult : Option (List Int) :=
        (part.refine constr).foldl
          (fun futResult p =>
            lift2 (fun futResult futCount => futResult ++ [futCount]) futResult
              (generatePar constr fuel (depth - 1) p))
          (some [])
      match futResult with
      | none => none
      | some ftrs => some ((when_all_vec ftrs).foldl (fun candts i => wrapInt (candts + i)) 0)

/-- The function `timeTable` of the lazy program. -/
def timeTable (fuel : Nat) (persons : Persons) (allTalks : TalkList)
    (maxTracks maxSlots : Int) (isPar : Bool) : Option Int :=
  let constr := Constr.new maxSlots maxTracks persons
  let emptySol := PartSol.new allTalks
  if isPar then generatePar constr fuel 2 (PartSlot.new emptySol)
  else generate constr fuel (PartSlot.new emptySol)

end Lazy

end Timetable

/-! ## Auxiliary definitions used to state and prove the properties -/

namespace Timetable

/-- All the values of a list of optional values, `none` as soon as one is missing. -/
def allSome {β : Type} : List (Option β) → Option (List β)
  | [] => some []
  | none :: _ => none
  | some b :: rest =>
    match allSome rest with
    | none => none
    | some bs => some (b :: bs)

end Timetable

namespace Timetable.Original

/-- The successor of a partial solution that places the talk `p.1` of the
selection `p` (a talk of the eligible list paired with the other eligible talks). -/
def PartSol.place (s : PartSol) (constr : Constr) (p : Talk × List Talk) : PartSol :=
  { _curSlotNo := s._curSlotNo
    _partSlot :=
      { _curTrackNo := s._partSlot._curTrackNo + 1
        _talksInSlot := p.1 :: s._partSlot._talksInSlot
        _talksForSlot := diff p.2 (constr.clashesWith p.1) }
    _remainingTalks := remove1 s._remainingTalks p.1
    _tableSoFar := s._tableSoFar }

/-- The state `f` is reached from the state `s` by zero or more `refine` steps, each
taken from a state that is not finished (the states `generate` visits below `s`). -/
inductive Reach (constr : Constr) : PartSol → PartSol → Prop
  | refl (s : PartSol) : Reach constr s s
  | step (s s' f : PartSol) :
      s.isFinished constr = false → s' ∈ s.refine constr → Reach constr s' f →
      Reach constr s f

/-- A bound on the recursion depth of `generate` below a state. -/
def PartSol.measure (s : PartSol) (constr : Constr) : Nat :=
  (constr._maxSlots - s._curSlotNo).toNat * (s._remainingTalks.length + 2)
    + (if s._partSlot.isFinished constr then 0 else s._partSlot._talksForSlot.length + 1)

end Timetable.Original

namespace Timetable.Original

/-- Shape invariant of the states of the eager search: one finished slot per slot
number, one placed talk per track number, and every finished slot is full. -/
def ShapeInv (constr : Constr) (s : PartSol) : Prop :=
  (s._tableSoFar.length : Int) = s._curSlotNo ∧
    (s._partSlot._talksInSlot.length : Int) = s._partSlot._curTrackNo ∧
    ∀ slot ∈ s._tableSoFar, (slot.length : Int) = constr._maxTracks

/-- Accounting invariant of the states of the eager search: the finished slots, the
current slot and the remaining talks together are the talk list, and the eligible
talks are among the remaining ones. -/
def AccountInv (allTalks : TalkList) (s : PartSol) : Prop :=
  (s._tableSoFar.flatten ++ s._partSlot._talksInSlot ++ s._remainingTalks).Perm allTalks ∧
    s._partSlot._talksForSlot.Subperm s._remainingTalks

/-- No two different talks of the list are known to clash in both directions. -/
def ClashFree (constr : Constr) (slot : TalkList) : Prop :=
  ∀ a ∈ slot, ∀ b ∈ slot, a ≠ b → b ∉ constr.clashesWith a ∨ a ∉ constr.clashesWith b

/-- Clash invariant of the states of the eager search. -/
def ClashInv (constr : Constr) (s : PartSol) : Prop :=
  (∀ slot ∈ s._tableSoFar, ClashFree constr slot) ∧
    ClashFree constr s._partSlot._talksInSlot ∧
    ∀ a ∈ s._partSlot._talksInSlot, ∀ b ∈ s._partSlot._talksForSlot,
      b ∉ constr.clashesWith a

end Timetable.Original

namespace Timetable.Lazy

/-- The cell of the stream of `refineSlot` that places the talk `tk`. -/
def PartSlot.place (s : PartSlot) (constr : Constr) (tk : Talk) : PartSlot :=
  { _curTrackNo := s._curTrackNo + 1
    _talksInSlot := tk :: s._talksInSlot
    _talksForSlot := diff (remove1 s._talksForSlot tk) (constr.clashesWith tk)
    _partSol := s._partSol.removeTalk tk }

/-- A state of the lazy search and a state of the eager search that stand for the
same position of the search: same slot and track numbers, same remaining talks and
the same eligible talks up to their order. -/
def Sim (l : PartSlot) (o : Original.PartSol) : Prop :=
  l._curTrackNo = o._partSlot._curTrackNo ∧
    l._talksForSlot.Perm o._partSlot._talksForSlot ∧
    l._partSol._curSlotNo = o._curSlotNo ∧
    l._partSol._remainingTalks = o._remainingTalks

/-- The state of the eager search with the fields of a state of the lazy search. -/
def PartSlot.toOriginal (l : PartSlot) : Original.PartSol :=
  { _curSlotNo := l._partSol._curSlotNo
    _partSlot :=
      { _curTrackNo := l._curTrackNo
        _talksInSlot := l._talksInSlot
        _talksForSlot := l._talksForSlot }
    _remainingTalks := l._partSol._remainingTalks
    _tableSoFar := l._partSol._tableSoFar }

/-- The constraint of the eager search with the fields of a constraint of the lazy
search. -/
def Constr.toOriginal (constr : Constr) : Original.Constr :=
  { _maxSlots := constr._maxSlots
    _maxTracks := constr._maxTracks
    _clashMap := constr._clashMap }

end Timetable.Lazy

/-! ## Definitions for the scenarios, the transition rules and the measures -/

namespace Timetable.Original

/-- The function `test` of the eager program. -/
def test (fuel : Nat) : Option (List TimeTable) :=
  let l1 : List Talk := [1, 2]
  let l2 : List Talk := [2, 3]
  let l3 : List Talk := [3, 4]
  let persons : List Person := [⟨"P", l1⟩, ⟨"Q", l2⟩, ⟨"R", l3⟩]
  let talks : List Talk := [1, 2, 3, 4]
  timeTable fuel persons talks 2 2 false

/-- The state `f` is obtained from the state `s` by zero or more applications of
`PartSol::refine` (whether or not the states in between are finished). -/
inductive Refines (constr : Constr) : PartSol → PartSol → Prop
  | refl (s : PartSol) : Refines constr s s
  | step (s s' f : PartSol) :
      s' ∈ s.refine constr → Refines constr s' f → Refines constr s f

/-- The lexicographic measure of a state: the number of slots still to finish, then
`0` for a full slot and otherwise one more than the number of eligible talks. -/
def PartSol.lexMeasure (s : PartSol) (constr : Constr) : Nat × Nat :=
  ((constr._maxSlots - s._curSlotNo).toNat,
    if s._partSlot.isFinished constr then 0 else s._partSlot._talksForSlot.length + 1)

/-- The state `f` continues the state `s`: either it is in the same slot, with the
same finished slots and more talks placed in front of those of `s`, or `f` has
finished the slot of `s` and possibly more slots in front of it. -/
def Extends (s f : PartSol) : Prop :=
  (f._curSlotNo = s._curSlotNo ∧ f._tableSoFar = s._tableSoFar ∧
      ∃ pre, f._partSlot._talksInSlot = pre ++ s._partSlot._talksInSlot) ∨
    ∃ slots pre, f._tableSoFar = slots ++ (pre ++ s._partSlot._talksInSlot) :: s._tableSoFar

/-- The number of talks still to place from a state until the last slot is full. -/
def PartSol.needed (s : PartSol) (constr : Constr) : Nat :=
  ((constr._maxSlots - s._curSlotNo) * constr._maxTracks - s._partSlot._curTrackNo).toNat

/-- The eligible talks and the remaining talks of a state are duplicate-free. -/
def NodupInv (s : PartSol) : Prop :=
  s._partSlot._talksForSlot.Nodup ∧ s._remainingTalks.Nodup

end Timetable.Original

namespace Timetable.Lazy

/-- The function `test` of the lazy program. -/
def test (fuel : Nat) : Option Int :=
  let l1 : List Talk := [1, 2]
  let l2 : List Talk := [2, 3]
  let l3 : List Talk := [3, 4]
  let persons : List Person := [⟨"P", l1⟩, ⟨"Q", l2⟩, ⟨"R", l3⟩]
  let talks : List Talk := [1, 2, 3, 4]
  timeTable fuel persons talks 2 2 false

/-- The state `f` is obtained from the state `s` by zero or more applications of
`PartSlot::refine` of the lazy program. -/
inductive LazyRefines (constr : Constr) : PartSlot → PartSlot → Prop
  | refl (s : PartSlot) : LazyRefines constr s s
  | step (s s' f : PartSlot) :
      s' ∈ s.refine constr → LazyRefines constr s' f → LazyRefines constr s f

/-- Accounting invariant of the states of the lazy search. -/
def LazyAccountInv (allTalks : TalkList) (s : PartSlot) : Prop :=
  (s._partSol._tableSoFar.flatten ++ s._talksInSlot ++ s._partSol._remainingTalks).Perm allTalks ∧
    s._talksForSlot.Subperm s._partSol._remainingTalks

/-- The lexicographic measure of a state of the lazy search. -/
def PartSlot.lexMeasure (s : PartSlot) (constr : Constr) : Nat × Nat :=
  ((constr._maxSlots - s._partSol._curSlotNo).toNat,
    if constr.isMaxTracks s._curTrackNo then 0 else s._talksForSlot.length + 1)

end Timetable.Lazy

namespace Timetable

/-- All the ways to insert an element into a list. -/
def insertions (x : Talk) : List Talk → List (List Talk)
  | [] => [[x]]
  | y :: ys => (x :: y :: ys) :: (insertions x ys).map (fun l => y :: l)

/-- All the arrangements of the elements of a list. -/
def arrangements : List Talk → List (List Talk)
  | [] => [[]]
  | x :: xs => (arrangements xs).flatMap (insertions x)

/-- The first `k` slots of `m` tracks cut from a list of talks. -/
def slotsOf (m : Nat) : Nat → List Talk → TimeTable
  | 0, _ => []
  | k + 1, l => l.take m :: slotsOf m k (l.drop m)

/-- No two different talks of the slot are in the talk list of one person. -/
def slotAllowed (persons : Persons) (slot : TalkList) : Bool :=
  slot.all fun a => slot.all fun b =>
    decide (a = b) || persons.all fun p => !(decide (a ∈ p._talks) && decide (b ∈ p._talks))

/-- Brute-force enumeration of the timetables of a talk list that fills the slots
exactly: every arrangement of the talks, cut into slots, that puts no two talks of
one person in a slot.  It does not use the search. -/
def bruteForce (persons : Persons) (talks : TalkList) (maxTracks maxSlots : Nat) :
    List TimeTable :=
  ((arrangements talks).map (slotsOf maxTracks maxSlots)).filter
    (fun table => table.all (slotAllowed persons))

end Timetable

/-! ## General lemmas -/

namespace Timetable

theorem foldl_push_front {α β : Type} (f : α → β) (l : List α) (init : List β) :
    l.foldl (fun candts x => f x :: candts) init = (l.map f).reverse ++ init := by
  induction l generalizing init with
  | nil => simp
  | cons x xs ih => simp [ih]

theorem allSome_eq_some_iff {β : Type} (os : List (Option β)) (bs : List β) :
    allSome os = some bs ↔ os = bs.map some := by
  induction os generalizing bs with
  | nil => cases bs <;> simp [allSome]
  | cons o os ih =>
    cases o with
    | none => cases bs <;> simp [allSome]
    | some b =>
      cases bs with
      | nil =>
        cases h : allSome os <;> simp [allSome, h]
      | cons c cs =>
        have ih' := ih cs
        cases h : allSome os with
        | none =>
          rw [h] at ih'
          have hne : ¬ os = List.map some cs := fun e => by simpa using ih'.2 e
          simp [allSome, h, hne]
        | some rs =>
          rw [h] at ih'
          simp only [allSome, h, Option.some.injEq, List.cons.injEq, List.map_cons]
          rw [← ih', Option.some.injEq]

theorem allSome_isSome {β : Type} (os : List (Option β)) (h : ∀ o ∈ os, o.isSome = true) :
    (allSome os).isSome = true := by
  induction os with
  | nil => simp [allSome]
  | cons o os ih =>
    have ho := h o (List.mem_cons_self _ _)
    have ih' := ih (fun o' ho' => h o' (List.mem_cons_of_mem _ ho'))
    cases o with
    | none => simp at ho
    | some b =>
      cases h' : allSome os with
      | none => simp [h'] at ih'
      | some bs => simp [allSome, h']

theorem allSome_eq_none_iff {β : Type} (os : List (Option β)) :
    allSome os = none ↔ none ∈ os := by
  induction os with
  | nil => simp [allSome]
  | cons o os ih =>
    cases o with
    | none => simp [allSome]
    | some b =>
      cases h : allSome os with
      | none => simp [allSome, h, ih.1 h]
      | some bs =>
        have : ¬ none ∈ os := fun hn => by rw [ih.2 hn] at h; cases h
        simp [allSome, h, this]

/-- A loop that accumulates the results of recursive calls succeeds exactly when
all the calls do, and then it folds the body over their results. -/
theorem foldl_lift2 {α β γ : Type} (f : γ → β → γ) (g : α → Option β) (xs : List α)
    (init : Option γ) :
    xs.foldl (fun acc p => lift2 f acc (g p)) init
      = lift2 (fun c rs => List.foldl f c rs) init (allSome (xs.map g)) := by
  induction xs generalizing init with
  | nil => cases init <;> simp [allSome, lift2]
  | cons x xs ih =>
    rw [List.foldl_cons, ih]
    cases init with
    | none => cases allSome (List.map g (x :: xs)) <;> simp [lift2]
    | some c =>
      cases hx : g x with
      | none => simp [allSome, hx, lift2]
      | some l =>
        cases hr : allSome (xs.map g) with
        | none => simp [allSome, hx, hr, lift2]
        | some rs => simp [allSome, hx, hr, lift2]

theorem foldl_append_flatten {β : Type} (rs : List (List β)) (c : List β) :
    rs.foldl (fun res v => res ++ v) c = c ++ rs.flatten := by
  induction rs generalizing c with
  | nil => simp
  | cons r rs ih => simp [ih]

end Timetable

/-! ## The eager program: successors, recursion, termination -/

namespace Timetable.Original

theorem mem_selAccum_iff {α : Type} (left right : List α) (p : α × List α) :
    p ∈ selAccum left right ↔
      ∃ l1 l2, right = l1 ++ p.1 :: l2 ∧ p.2 = l1.reverse ++ left ++ l2 := by
  induction right generalizing left with
  | nil => simp [selAccum]
  | cons x xs ih =>
    simp only [selAccum, List.mem_cons, ih, concat]
    constructor
    · rintro (rfl | ⟨l1, l2, h1, h2⟩)
      · exact ⟨[], xs, by simp, by simp⟩
      · exact ⟨x :: l1, l2, by simp [h1], by simp [h2]⟩
    · rintro ⟨l1, l2, h1, h2⟩
      cases l1 with
      | nil =>
        left
        simp only [List.nil_append, List.cons.injEq] at h1
        obtain ⟨rfl, rfl⟩ := h1
        simp only [List.reverse_nil, List.nil_append] at h2
        exact Prod.ext rfl h2
      | cons y ys =>
        right
        simp only [List.cons_append, List.cons.injEq] at h1
        obtain ⟨rfl, rfl⟩ := h1
        exact ⟨ys, l2, rfl, by simp [h2]⟩

theorem mem_selects_iff {α : Type} (lst : List α) (p : α × List α) :
    p ∈ selects lst ↔ ∃ l1 l2, lst = l1 ++ p.1 :: l2 ∧ p.2 = l1.reverse ++ l2 := by
  simp [selects, mem_selAccum_iff]

theorem selAccum_map_fst {α : Type} (left right : List α) :
    (selAccum left right).map Prod.fst = right := by
  induction right generalizing left with
  | nil => simp [selAccum]
  | cons x xs ih => simp [selAccum, ih]

theorem selects_map_fst {α : Type} (lst : List α) : (selects lst).map Prod.fst = lst :=
  selAccum_map_fst [] lst

theorem selects_perm {α : Type} {lst : List α} {p : α × List α} (h : p ∈ selects lst) :
    (p.1 :: p.2).Perm lst := by
  obtain ⟨l1, l2, h1, h2⟩ := (mem_selects_iff lst p).1 h
  rw [h1, h2]
  have h3 : (l1.reverse ++ l2).Perm (l1 ++ l2) := (List.reverse_perm l1).append_right l2
  exact (h3.cons p.1).trans List.perm_middle.symm

theorem selects_fst_mem {α : Type} {lst : List α} {p : α × List α} (h : p ∈ selects lst) :
    p.1 ∈ lst :=
  (selects_perm h).subset (List.mem_cons_self _ _)

theorem selects_perm_erase {lst : List Talk} {p : Talk × List Talk} (h : p ∈ selects lst) :
    p.2.Perm (lst.erase p.1) := by
  have h1 := (selects_perm h).erase p.1
  simpa using h1

theorem exists_mem_selects {α : Type} {lst : List α} {c : α} (h : c ∈ lst) :
    ∃ rest, (c, rest) ∈ selects lst := by
  obtain ⟨l1, l2, rfl⟩ := List.append_of_mem h
  exact ⟨l1.reverse ++ l2, (mem_selects_iff _ _).2 ⟨l1, l2, rfl, rfl⟩⟩

/-- The two `push_front` loops of `PartSlot::refine` and `PartSol::refine` cancel:
the successors come in the order of `selects`. -/
theorem PartSol.refine_of_not_finished (s : PartSol) (constr : Constr)
    (h : s._partSlot.isFinished constr = false) :
    s.refine constr = (selects s._partSlot._talksForSlot).map (s.place constr) := by
  unfold PartSol.refine PartSlot.refine
  rw [if_neg (by simp [h])]
  rw [foldl_push_front, foldl_push_front]
  simp only [List.append_nil, List.map_reverse, List.reverse_reverse, List.map_map]
  rfl

theorem PartSol.refine_of_finished (s : PartSol) (constr : Constr)
    (h : s._partSlot.isFinished constr = true) :
    s.refine constr =
      [PartSol.new3 (s._curSlotNo + 1) (s._partSlot._talksInSlot :: s._tableSoFar)
        s._remainingTalks] := by
  unfold PartSol.refine
  rw [if_pos h]

theorem generate_zero (constr : Constr) (part : PartSol) : generate constr 0 part = none := rfl

theorem generate_succ (constr : Constr) (fuel : Nat) (part : PartSol) :
    generate constr (fuel + 1) part =
      if part.isFinished constr then some [part.getSolution]
      else (allSome ((part.refine constr).map (generate constr fuel))).map List.flatten := by
  rw [generate]
  split
  · rfl
  · rw [foldl_lift2]
    cases allSome ((part.refine constr).map (generate constr fuel)) <;>
      simp [lift2, foldl_append_flatten]

end Timetable.Original

namespace Timetable.Original

theorem generate_sound (constr : Constr) :
    ∀ (fuel : Nat) (s : PartSol) (res : List TimeTable),
      generate constr fuel s = some res → ∀ t ∈ res,
        ∃ f, Reach constr s f ∧ f.isFinished constr = true ∧ f.getSolution = t := by
  intro fuel
  induction fuel with
  | zero => intro s res h; simp [generate_zero] at h
  | succ fuel ih =>
    intro s res h t ht
    rw [generate_succ] at h
    by_cases hfin : s.isFinished constr = true
    · rw [if_pos hfin] at h
      obtain rfl := Option.some.inj h
      rw [List.mem_singleton] at ht
      exact ⟨s, Reach.refl s, hfin, ht.symm⟩
    · rw [if_neg hfin] at h
      obtain ⟨rs, hrs, rfl⟩ := Option.map_eq_some'.1 h
      obtain ⟨r, hr, htr⟩ := List.mem_flatten.1 ht
      have hmap := (allSome_eq_some_iff _ _).1 hrs
      have hsome : some r ∈ (s.refine constr).map (generate constr fuel) := by
        rw [hmap]; exact List.mem_map_of_mem _ hr
      obtain ⟨s', hs', hgen⟩ := List.mem_map.1 hsome
      obtain ⟨f, hreach, hf, hsol⟩ := ih s' r hgen t htr
      exact ⟨f, Reach.step s s' f (by simpa using hfin) hs' hreach, hf, hsol⟩

theorem generate_complete (constr : Constr) {s f : PartSol} (hreach : Reach constr s f)
    (hf : f.isFinished constr = true) :
    ∀ (fuel : Nat) (res : List TimeTable),
      generate constr fuel s = some res → f.getSolution ∈ res := by
  induction hreach with
  | refl s =>
    intro fuel res h
    cases fuel with
    | zero => simp [generate_zero] at h
    | succ fuel =>
      rw [generate_succ, if_pos hf] at h
      obtain rfl := Option.some.inj h
      exact List.mem_singleton_self _
  | step s s' f hnot hmem _ ih =>
    intro fuel res h
    cases fuel with
    | zero => simp [generate_zero] at h
    | succ fuel =>
      rw [generate_succ, if_neg (by simp [hnot])] at h
      obtain ⟨rs, hrs, rfl⟩ := Option.map_eq_some'.1 h
      have hmap := (allSome_eq_some_iff _ _).1 hrs
      have hin : generate constr fuel s' ∈ rs.map some := by
        rw [← hmap]; exact List.mem_map_of_mem _ hmem
      obtain ⟨r, hr, hgen⟩ := List.mem_map.1 hin
      exact List.mem_flatten.2 ⟨r, hr, ih hf fuel r hgen.symm⟩

theorem Reach.invariant (constr : Constr) (I : PartSol → Prop)
    (hstep : ∀ s, I s → s.isFinished constr = false → ∀ s' ∈ s.refine constr, I s')
    {s f : PartSol} (hreach : Reach constr s f) (hs : I s) : I f := by
  induction hreach with
  | refl s => exact hs
  | step s s' f hnot hmem _ ih => exact ih (hstep s hs hnot s' hmem)

theorem Reach.trans (constr : Constr) {a b c : PartSol} (h1 : Reach constr a b)
    (h2 : Reach constr b c) : Reach constr a c := by
  induction h1 with
  | refl s => exact h2
  | step s s' f hnot hmem _ ih => exact Reach.step s s' c hnot hmem (ih h2)

theorem generate_fuel_mono (constr : Constr) :
    ∀ (fuel : Nat) (s : PartSol) (res : List TimeTable),
      generate constr fuel s = some res → generate constr (fuel + 1) s = some res := by
  intro fuel
  induction fuel with
  | zero => intro s res h; simp [generate_zero] at h
  | succ fuel ih =>
    intro s res h
    rw [generate_succ] at h ⊢
    by_cases hfin : s.isFinished constr = true
    · rw [if_pos hfin] at h ⊢; exact h
    · rw [if_neg hfin] at h ⊢
      obtain ⟨rs, hrs, rfl⟩ := Option.map_eq_some'.1 h
      have hmap := (allSome_eq_some_iff _ _).1 hrs
      have : (s.refine constr).map (generate constr (fuel + 1)) = rs.map some := by
        rw [← hmap]
        apply List.map_congr_left
        intro s' hs'
        have hin : generate constr fuel s' ∈ rs.map some := by
          rw [← hmap]; exact List.mem_map_of_mem _ hs'
        obtain ⟨r, _, hgen⟩ := List.mem_map.1 hin
        rw [← hgen]
        exact ih s' r hgen.symm
      rw [(allSome_eq_some_iff _ _).2 this]
      rfl

theorem generate_fuel_le (constr : Constr) {fuel fuel' : Nat} (hle : fuel ≤ fuel')
    {s : PartSol} {res : List TimeTable} (h : generate constr fuel s = some res) :
    generate constr fuel' s = some res := by
  induction hle with
  | refl => exact h
  | step _ ih => exact generate_fuel_mono constr _ s res ih

theorem generate_functional (constr : Constr) {fuel fuel' : Nat} {s : PartSol}
    {res res' : List TimeTable} (h : generate constr fuel s = some res)
    (h' : generate constr fuel' s = some res') : res = res' := by
  rcases Nat.le_total fuel fuel' with hle | hle
  · have := generate_fuel_le constr hle h
    rw [h'] at this; exact (Option.some.inj this).symm
  · have := generate_fuel_le constr hle h'
    rw [h] at this; exact Option.some.inj this

theorem refine_measure_lt (constr : Constr) (s : PartSol)
    (hle : s._curSlotNo ≤ constr._maxSlots) (hnot : s.isFinished constr = false)
    (s' : PartSol) (hs' : s' ∈ s.refine constr) :
    s'._curSlotNo ≤ constr._maxSlots ∧ s'.measure constr < s.measure constr := by
  have hne : s._curSlotNo ≠ constr._maxSlots := by
    simpa [PartSol.isFinished, Constr.isMaxSlots] using hnot
  by_cases hslot : s._partSlot.isFinished constr = true
  · rw [PartSol.refine_of_finished s constr hslot, List.mem_singleton] at hs'
    subst hs'
    refine ⟨by simp only [PartSol.new3]; omega, ?_⟩
    obtain ⟨k, hk⟩ : ∃ k : Nat, (constr._maxSlots - s._curSlotNo).toNat = k + 1 :=
      ⟨(constr._maxSlots - s._curSlotNo).toNat - 1, by omega⟩
    have hk' : (constr._maxSlots - (s._curSlotNo + 1)).toNat = k := by omega
    simp only [PartSol.measure, PartSol.new3, PartSlot.new, hk, hk', hslot, if_true]
    rw [Nat.succ_mul]
    split <;> omega
  · have hslot' : s._partSlot.isFinished constr = false := by simpa using hslot
    rw [PartSol.refine_of_not_finished s constr hslot', List.mem_map] at hs'
    obtain ⟨p, hp, rfl⟩ := hs'
    refine ⟨hle, ?_⟩
    have hlen : p.2.length + 1 = s._partSlot._talksForSlot.length := by
      have := (selects_perm hp).length_eq
      simpa using this
    have h1 : (diff p.2 (constr.clashesWith p.1)).length ≤ p.2.length :=
      List.length_filter_le _ _
    have h2 : (remove1 s._remainingTalks p.1).length ≤ s._remainingTalks.length := by
      unfold remove1
      rw [List.length_erase]
      split <;> omega
    have h3 : (constr._maxSlots - s._curSlotNo).toNat * ((remove1 s._remainingTalks p.1).length + 2)
        ≤ (constr._maxSlots - s._curSlotNo).toNat * (s._remainingTalks.length + 2) :=
      Nat.mul_le_mul_left _ (by omega)
    simp only [PartSol.measure, PartSol.place, hslot', Bool.false_eq_true, if_false]
    split <;> omega

theorem generate_terminates (constr : Constr) :
    ∀ (fuel : Nat) (s : PartSol), s._curSlotNo ≤ constr._maxSlots →
      s.measure constr < fuel → (generate constr fuel s).isSome = true := by
  intro fuel
  induction fuel with
  | zero => intro s _ h; omega
  | succ fuel ih =>
    intro s hle hlt
    rw [generate_succ]
    by_cases hfin : s.isFinished constr = true
    · rw [if_pos hfin]; rfl
    · rw [if_neg hfin, Option.isSome_map']
      apply allSome_isSome
      intro o ho
      obtain ⟨s', hs', rfl⟩ := List.mem_map.1 ho
      obtain ⟨h1, h2⟩ := refine_measure_lt constr s hle (by simpa using hfin) s' hs'
      exact ih s' h1 (by omega)

end Timetable.Original

/-! ## The clash model -/

namespace Timetable

theorem mem_findWithDefault_insertWith (m : RBMap) (k : Talk) (v : TalkSet) (a b : Talk) :
    b ∈ (m.insertWith k v treeUnion).findWithDefault ∅ a ↔
      b ∈ m.findWithDefault ∅ a ∨ (a = k ∧ b ∈ v) := by
  unfold RBMap.insertWith RBMap.findWithDefault treeUnion
  by_cases hak : a = k
  · subst hak
    cases h : m a <;> simp [h]
  · simp [hak]

/-- Membership in a clash set after a sequence of `insertWith` of the sets of the
lists `p.2` at the keys `p.1`. -/
theorem mem_findWithDefault_foldl (ins : List (Talk × List Talk)) (m : RBMap) (a b : Talk) :
    b ∈ (ins.foldl (fun clashMap p => clashMap.insertWith p.1 (TalkSet.ofList p.2) treeUnion)
          m).findWithDefault ∅ a ↔
      b ∈ m.findWithDefault ∅ a ∨ ∃ p ∈ ins, p.1 = a ∧ b ∈ p.2 := by
  induction ins generalizing m with
  | nil => simp
  | cons q qs ih =>
    rw [List.foldl_cons, ih, mem_findWithDefault_insertWith]
    simp only [TalkSet.ofList, List.mem_toFinset, List.mem_cons, exists_eq_or_imp]
    constructor
    · rintro ((h | ⟨h1, h2⟩) | h)
      · exact Or.inl h
      · exact Or.inr (Or.inl ⟨h1.symm, h2⟩)
      · exact Or.inr (Or.inr h)
    · rintro (h | ⟨h1, h2⟩ | h)
      · exact Or.inl (Or.inl h)
      · exact Or.inl (Or.inr ⟨h1.symm, h2⟩)
      · exact Or.inr h

theorem foldl_foldl_eq_foldl_flatMap {α β γ : Type} (f : γ → β → γ) (g : α → List β)
    (xs : List α) (init : γ) :
    xs.foldl (fun acc x => (g x).foldl f acc) init = (xs.flatMap g).foldl f init := by
  induction xs generalizing init with
  | nil => rfl
  | cons x xs ih => simp [List.flatMap_cons, List.foldl_append, ih]

theorem not_mem_empty_findWithDefault (a b : Talk) :
    ¬ b ∈ RBMap.empty.findWithDefault ∅ a := by
  simp [RBMap.empty, RBMap.findWithDefault]

namespace Original

/-- Membership in a clash set of the eager program: some person's talk list holds
`a` at one position and `b` at another. -/
theorem mem_clashesWith_iff (maxSlots maxTracks : Int) (people : List Person) (a b : Talk) :
    b ∈ (Constr.new maxSlots maxTracks people).clashesWith a ↔
      ∃ person ∈ people, ∃ l1 l2, person._talks = l1 ++ a :: l2 ∧ (b ∈ l1 ∨ b ∈ l2) := by
  unfold Constr.clashesWith Constr.new
  simp only
  rw [foldl_foldl_eq_foldl_flatMap
    (fun (clashMap : RBMap) (p : Talk × List Talk) =>
      clashMap.insertWith p.1 (TalkSet.ofList p.2) treeUnion)
    (fun person : Person => selects person._talks)]
  rw [mem_findWithDefault_foldl]
  simp only [not_mem_empty_findWithDefault, false_or, List.mem_flatMap]
  constructor
  · rintro ⟨p, ⟨person, hperson, hp⟩, rfl, hb⟩
    obtain ⟨l1, l2, h1, h2⟩ := (mem_selects_iff _ _).1 hp
    refine ⟨person, hperson, l1, l2, h1, ?_⟩
    rw [h2] at hb
    simpa using hb
  · rintro ⟨person, hperson, l1, l2, h1, hb⟩
    refine ⟨(a, l1.reverse ++ l2), ⟨person, hperson, ?_⟩, rfl, by simpa using hb⟩
    exact (mem_selects_iff _ _).2 ⟨l1, l2, h1, rfl⟩

theorem mem_of_mem_clashesWith {maxSlots maxTracks : Int} {people : List Person} {a b : Talk}
    (h : b ∈ (Constr.new maxSlots maxTracks people).clashesWith a) :
    ∃ person ∈ people, a ∈ person._talks ∧ b ∈ person._talks := by
  obtain ⟨person, hperson, l1, l2, h1, hb⟩ := (mem_clashesWith_iff _ _ _ _ _).1 h
  refine ⟨person, hperson, ?_, ?_⟩
  · rw [h1]; simp
  · rw [h1]; rcases hb with hb | hb <;> simp [hb]

theorem mem_clashesWith_of_ne {maxSlots maxTracks : Int} {people : List Person} {a b : Talk}
    {person : Person} (hperson : person ∈ people) (ha : a ∈ person._talks)
    (hb : b ∈ person._talks) (hne : a ≠ b) :
    b ∈ (Constr.new maxSlots maxTracks people).clashesWith a := by
  obtain ⟨l1, l2, h1⟩ := List.append_of_mem ha
  refine (mem_clashesWith_iff _ _ _ _ _).2 ⟨person, hperson, l1, l2, h1, ?_⟩
  rw [h1] at hb
  simp only [List.mem_append, List.mem_cons] at hb
  rcases hb with hb | hb | hb
  · exact Or.inl hb
  · exact absurd hb.symm hne
  · exact Or.inr hb

theorem mem_clashesWith_iff_of_nodup (maxSlots maxTracks : Int) (people : List Person)
    (hnd : ∀ person ∈ people, person._talks.Nodup) (a b : Talk) :
    b ∈ (Constr.new maxSlots maxTracks people).clashesWith a ↔
      a ≠ b ∧ ∃ person ∈ people, a ∈ person._talks ∧ b ∈ person._talks := by
  constructor
  · intro h
    refine ⟨?_, mem_of_mem_clashesWith h⟩
    obtain ⟨person, hperson, l1, l2, h1, hb⟩ := (mem_clashesWith_iff _ _ _ _ _).1 h
    have hn := hnd person hperson
    rw [h1] at hn
    rintro rfl
    have hn' := List.nodup_middle.1 hn
    rw [List.nodup_cons, List.mem_append] at hn'
    exact hn'.1 hb
  · rintro ⟨hne, person, hperson, ha, hb⟩
    exact mem_clashesWith_of_ne hperson ha hb hne

end Original

namespace Lazy

theorem lazy_mem_clashesWith_iff (maxSlots maxTracks : Int) (people : List Person) (a b : Talk) :
    b ∈ (Constr.new maxSlots maxTracks people).clashesWith a ↔
      a ≠ b ∧ ∃ person ∈ people, a ∈ person._talks ∧ b ∈ person._talks := by
  unfold Constr.clashesWith Constr.new
  simp only
  have hinner : ∀ (person : Person) (m : RBMap),
      person._talks.foldl
          (fun clashMap tk =>
            clashMap.insertWith tk (TalkSet.ofList (remove person._talks tk)) treeUnion) m
        = (person._talks.map (fun tk => (tk, remove person._talks tk))).foldl
          (fun (clashMap : RBMap) (p : Talk × List Talk) =>
            clashMap.insertWith p.1 (TalkSet.ofList p.2) treeUnion) m := by
    intro person m
    rw [List.foldl_map]
  simp only [hinner]
  rw [foldl_foldl_eq_foldl_flatMap
    (fun (clashMap : RBMap) (p : Talk × List Talk) =>
      clashMap.insertWith p.1 (TalkSet.ofList p.2) treeUnion)
    (fun person : Person => person._talks.map (fun tk => (tk, remove person._talks tk)))]
  rw [mem_findWithDefault_foldl]
  simp only [not_mem_empty_findWithDefault, false_or, List.mem_flatMap, List.mem_map]
  constructor
  · rintro ⟨p, ⟨person, hperson, tk, htk, rfl⟩, rfl, hb⟩
    simp only [remove, List.mem_filter, decide_eq_true_eq] at hb
    exact ⟨fun h => hb.2 h.symm, person, hperson, htk, hb.1⟩
  · rintro ⟨hne, person, hperson, ha, hb⟩
    refine ⟨(a, remove person._talks a), ⟨person, hperson, a, ha, rfl⟩, rfl, ?_⟩
    simp only [remove, List.mem_filter, decide_eq_true_eq]
    exact ⟨hb, fun h => hne h.symm⟩

end Lazy

end Timetable

/-! ## The eager program: the parallel driver -/

namespace Timetable

theorem foldl_push_back {α : Type} (l init : List α) :
    l.foldl (fun lst f => lst ++ [f]) init = init ++ l := by
  induction l generalizing init with
  | nil => simp
  | cons x xs ih => simp [ih]

/-- Two families of recursive calls that succeed together and return permuted
results do so on every list of arguments. -/
theorem allSome_map_perm {α β : Type} (g g' : α → Option (List β)) (xs : List α)
    (h : ∀ x ∈ xs, (g x = none → g' x = none) ∧
      ∀ r, g x = some r → ∃ r', g' x = some r' ∧ r'.Perm r) :
    (allSome (xs.map g) = none → allSome (xs.map g') = none) ∧
      ∀ rs, allSome (xs.map g) = some rs →
        ∃ rs', allSome (xs.map g') = some rs' ∧ List.Forall₂ List.Perm rs' rs := by
  induction xs with
  | nil =>
    refine ⟨by simp [allSome], ?_⟩
    intro rs hrs
    simp only [List.map_nil, allSome, Option.some.injEq] at hrs
    subst hrs
    exact ⟨[], rfl, List.Forall₂.nil⟩
  | cons x xs ih =>
    obtain ⟨ih1, ih2⟩ := ih (fun y hy => h y (List.mem_cons_of_mem _ hy))
    obtain ⟨hx1, hx2⟩ := h x (List.mem_cons_self _ _)
    simp only [List.map_cons]
    cases hg : g x with
    | none =>
      rw [hx1 hg]
      simp [allSome]
    | some r =>
      obtain ⟨r', hr', hperm⟩ := hx2 r hg
      rw [hr']
      cases hrest : allSome (xs.map g) with
      | none => simp [allSome, hrest, ih1 hrest]
      | some rs =>
        obtain ⟨rs', hrs', hall⟩ := ih2 rs hrest
        refine ⟨by simp [allSome, hrest], ?_⟩
        intro qs hqs
        simp only [allSome, hrest, Option.some.injEq] at hqs
        subst hqs
        exact ⟨r' :: rs', by simp [allSome, hrs'], List.Forall₂.cons hperm hall⟩

namespace Original

theorem when_all_vec_eq {α : Type} (ftrs : List α) : when_all_vec ftrs = ftrs.reverse := by
  unfold when_all_vec
  rw [foldl_push_back, List.nil_append]

theorem concatAll_eq {α : Type} (xs : List (List α)) : concatAll xs = xs.flatten := by
  simp [concatAll, foldl_append_flatten]

theorem generatePar_zero (constr : Constr) (depth : Int) (part : PartSol) :
    generatePar constr 0 depth part = none := rfl

/-- One unfolding of `generatePar`: below a state that is not finished the results
of the successors are concatenated in the reverse of the successor order. -/
theorem generatePar_succ (constr : Constr) (fuel : Nat) (depth : Int) (part : PartSol) :
    generatePar constr (fuel + 1) depth part =
      if depth = 0 then generate constr (fuel + 1) part
      else if part.isFinished constr then some [part.getSolution]
      else (allSome ((part.refine constr).map (generatePar constr fuel (depth - 1)))).map
        (fun rs => rs.reverse.flatten) := by
  rw [generatePar]
  split
  · rfl
  · split
    · rfl
    · simp only [foldl_lift2]
      cases allSome ((part.refine constr).map (generatePar constr fuel (depth - 1))) <;>
        simp [lift2, foldl_push_back, when_all_vec_eq, concatAll_eq]

/-- The parallel driver succeeds exactly when the sequential driver does, and its
result is a permutation of the sequential result. -/
theorem generatePar_perm_generate (constr : Constr) :
    ∀ (fuel : Nat) (depth : Int) (part : PartSol),
      (generate constr fuel part = none → generatePar constr fuel depth part = none) ∧
        ∀ res, generate constr fuel part = some res →
          ∃ res', generatePar constr fuel depth part = some res' ∧ res'.Perm res := by
  intro fuel
  induction fuel with
  | zero =>
    intro depth part
    simp [generate_zero, generatePar_zero]
  | succ fuel ih =>
    intro depth part
    rw [generatePar_succ]
    by_cases hd : depth = 0
    · rw [if_pos hd]
      exact ⟨id, fun res hres => ⟨res, hres, List.Perm.refl _⟩⟩
    · rw [if_neg hd, generate_succ]
      by_cases hfin : part.isFinished constr = true
      · rw [if_pos hfin, if_pos hfin]
        exact ⟨id, fun res hres => ⟨res, hres, List.Perm.refl _⟩⟩
      · rw [if_neg hfin, if_neg hfin]
        obtain ⟨h1, h2⟩ := allSome_map_perm (generate constr fuel)
          (generatePar constr fuel (depth - 1)) (part.refine constr)
          (fun x _ => ih (depth - 1) x)
        constructor
        · intro hnone
          rw [Option.map_eq_none'] at hnone
          rw [h1 hnone]; rfl
        · intro res hres
          obtain ⟨rs, hrs, rfl⟩ := Option.map_eq_some'.1 hres
          obtain ⟨rs', hrs', hall⟩ := h2 rs hrs
          refine ⟨rs'.reverse.flatten, by rw [hrs']; rfl, ?_⟩
          exact ((List.reverse_perm rs').flatten).trans (List.Perm.flatten_congr hall)

theorem generatePar_eq_some (constr : Constr) {fuel : Nat} {depth : Int} {part : PartSol}
    {res' : List TimeTable} (h : generatePar constr fuel depth part = some res') :
    ∃ res, generate constr fuel part = some res ∧ res'.Perm res := by
  obtain ⟨h1, h2⟩ := generatePar_perm_generate constr fuel depth part
  cases hg : generate constr fuel part with
  | none => rw [h1 hg] at h; cases h
  | some res =>
    obtain ⟨res'', h3, h4⟩ := h2 res hg
    rw [h] at h3
    obtain rfl := Option.some.inj h3
    exact ⟨res, rfl, h4⟩

end Original

end Timetable

/-! ## The eager program: invariants of the visited states -/

namespace Timetable.Original

theorem mem_diff_iff (l : TalkList) (s : TalkSet) (x : Talk) :
    x ∈ diff l s ↔ x ∈ l ∧ x ∉ s := by
  simp [diff]

theorem shapeInv_init (constr : Constr) (allTalks : TalkList) :
    ShapeInv constr (PartSol.new allTalks) := by
  simp [ShapeInv, PartSol.new, PartSlot.new]

theorem shapeInv_step (constr : Constr) (s : PartSol) (hs : ShapeInv constr s)
    (_hnot : s.isFinished constr = false) (s' : PartSol) (hs' : s' ∈ s.refine constr) :
    ShapeInv constr s' := by
  obtain ⟨h1, h2, h3⟩ := hs
  by_cases hslot : s._partSlot.isFinished constr = true
  · rw [PartSol.refine_of_finished s constr hslot, List.mem_singleton] at hs'
    subst hs'
    have htrack : s._partSlot._curTrackNo = constr._maxTracks := by
      simpa [PartSlot.isFinished, Constr.isMaxTracks] using hslot
    refine ⟨?_, ?_, ?_⟩
    · simp only [PartSol.new3, List.length_cons]; push_cast; omega
    · simp [PartSol.new3, PartSlot.new]
    · intro slot hslot'
      simp only [PartSol.new3, List.mem_cons] at hslot'
      rcases hslot' with rfl | hslot'
      · omega
      · exact h3 slot hslot'
  · have hslot' : s._partSlot.isFinished constr = false := by simpa using hslot
    rw [PartSol.refine_of_not_finished s constr hslot', List.mem_map] at hs'
    obtain ⟨p, _, rfl⟩ := hs'
    refine ⟨h1, ?_, h3⟩
    simp only [PartSol.place, List.length_cons]; push_cast; omega

theorem accountInv_init (allTalks : TalkList) : AccountInv allTalks (PartSol.new allTalks) := by
  refine ⟨?_, ?_⟩
  · simp [PartSol.new, PartSlot.new]
  · exact List.Subperm.refl _

theorem accountInv_step (constr : Constr) (allTalks : TalkList) (s : PartSol)
    (hs : AccountInv allTalks s)
    (_hnot : s.isFinished constr = false) (s' : PartSol) (hs' : s' ∈ s.refine constr) :
    AccountInv allTalks s' := by
  obtain ⟨h1, h2⟩ := hs
  by_cases hslot : s._partSlot.isFinished constr = true
  · rw [PartSol.refine_of_finished s constr hslot, List.mem_singleton] at hs'
    subst hs'
    refine ⟨?_, List.Subperm.refl _⟩
    refine List.Perm.trans ?_ h1
    simp only [PartSol.new3, PartSlot.new, List.flatten_cons, List.append_nil]
    exact List.Perm.append_right _ List.perm_append_comm
  · have hslot' : s._partSlot.isFinished constr = false := by simpa using hslot
    rw [PartSol.refine_of_not_finished s constr hslot', List.mem_map] at hs'
    obtain ⟨p, hp, rfl⟩ := hs'
    have hmem : p.1 ∈ s._remainingTalks := h2.subset (selects_fst_mem hp)
    refine ⟨?_, ?_⟩
    · refine List.Perm.trans ?_ h1
      simp only [PartSol.place, remove1, List.append_assoc]
      refine List.Perm.append_left _ ?_
      refine List.Perm.trans ?_
        (List.Perm.append_left s._partSlot._talksInSlot (List.perm_cons_erase hmem).symm)
      simp only [List.cons_append]
      exact List.perm_middle.symm
    · simp only [PartSol.place, remove1, diff]
      refine List.Subperm.trans (List.filter_sublist _).subperm ?_
      exact ((selects_perm_erase hp).subperm).trans (h2.erase p.1)

theorem clashInv_init (constr : Constr) (allTalks : TalkList) :
    ClashInv constr (PartSol.new allTalks) := by
  simp [ClashInv, ClashFree, PartSol.new, PartSlot.new]

theorem clashInv_step (constr : Constr) (s : PartSol) (hs : ClashInv constr s)
    (_hnot : s.isFinished constr = false) (s' : PartSol) (hs' : s' ∈ s.refine constr) :
    ClashInv constr s' := by
  obtain ⟨h1, h2, h3⟩ := hs
  by_cases hslot : s._partSlot.isFinished constr = true
  · rw [PartSol.refine_of_finished s constr hslot, List.mem_singleton] at hs'
    subst hs'
    refine ⟨?_, ?_, ?_⟩
    · intro slot hslot'
      simp only [PartSol.new3, List.mem_cons] at hslot'
      rcases hslot' with rfl | hslot'
      · exact h2
      · exact h1 slot hslot'
    · simp [PartSol.new3, PartSlot.new, ClashFree]
    · simp [PartSol.new3, PartSlot.new]
  · have hslot' : s._partSlot.isFinished constr = false := by simpa using hslot
    rw [PartSol.refine_of_not_finished s constr hslot', List.mem_map] at hs'
    obtain ⟨p, hp, rfl⟩ := hs'
    have hsub : ∀ x ∈ p.2, x ∈ s._partSlot._talksForSlot := fun x hx =>
      (selects_perm hp).subset (List.mem_cons_of_mem _ hx)
    refine ⟨h1, ?_, ?_⟩
    · intro a ha b hb hab
      simp only [PartSol.place, List.mem_cons] at ha hb
      rcases ha with rfl | ha <;> rcases hb with rfl | hb
      · exact absurd rfl hab
      · exact Or.inr (h3 b hb _ (selects_fst_mem hp))
      · exact Or.inl (h3 a ha _ (selects_fst_mem hp))
      · exact h2 a ha b hb hab
    · intro a ha b hb
      simp only [PartSol.place, List.mem_cons, mem_diff_iff] at ha hb
      rcases ha with rfl | ha
      · exact hb.2
      · exact h3 a ha b (hsub b hb.1)

/-! ### The driver `timeTable` -/

theorem timeTable_eq_some {fuel : Nat} {persons : Persons} {allTalks : TalkList}
    {maxTracks maxSlots : Int} {isPar : Bool} {res : List TimeTable}
    (h : timeTable fuel persons allTalks maxTracks maxSlots isPar = some res) :
    ∃ res0, generate (Constr.new maxSlots maxTracks persons) fuel (PartSol.new allTalks)
        = some res0 ∧ res.Perm res0 := by
  unfold timeTable at h
  cases isPar with
  | false => exact ⟨res, by simpa using h, List.Perm.refl _⟩
  | true => exact generatePar_eq_some _ (by simpa using h)

theorem timeTable_terminates (persons : Persons) (allTalks : TalkList)
    (maxTracks maxSlots : Int) (isPar : Bool) (hms : 0 ≤ maxSlots) :
    ∃ fuel res, timeTable fuel persons allTalks maxTracks maxSlots isPar = some res := by
  let constr := Constr.new maxSlots maxTracks persons
  let fuel := (PartSol.new allTalks).measure constr + 1
  have hsome := generate_terminates constr fuel (PartSol.new allTalks) hms (Nat.lt_succ_self _)
  obtain ⟨res, hres⟩ := Option.isSome_iff_exists.1 hsome
  cases isPar with
  | false => exact ⟨fuel, res, by simpa [timeTable] using hres⟩
  | true =>
    obtain ⟨res', hres', _⟩ := (generatePar_perm_generate constr fuel 3 (PartSol.new allTalks)).2
      res hres
    exact ⟨fuel, res', by simpa [timeTable] using hres'⟩

/-- What holds of every table that `generate` returns from the initial state, for
any constraint: its shape, that its talks are talks of the talk list, each at most
as often as there, and that no slot holds two talks known to clash. -/
theorem generate_new_props (constr : Constr) (allTalks : TalkList) {fuel : Nat}
    {res : List TimeTable} (h : generate constr fuel (PartSol.new allTalks) = some res)
    (t : TimeTable) (ht : t ∈ res) :
    (t.length : Int) = constr._maxSlots ∧
      (∀ slot ∈ t, (slot.length : Int) = constr._maxTracks) ∧
      t.flatten.Subperm allTalks ∧
      ∀ slot ∈ t, ClashFree constr slot := by
  obtain ⟨f, hreach, hfin, hsol⟩ := generate_sound _ fuel _ res h t ht
  have hinv := Reach.invariant constr
    (fun s => ShapeInv constr s ∧ AccountInv allTalks s ∧ ClashInv constr s)
    (fun s hs hnot s' hs' =>
      ⟨shapeInv_step constr s hs.1 hnot s' hs', accountInv_step constr allTalks s hs.2.1 hnot s' hs',
        clashInv_step constr s hs.2.2 hnot s' hs'⟩)
    hreach ⟨shapeInv_init constr allTalks, accountInv_init allTalks, clashInv_init constr allTalks⟩
  obtain ⟨⟨h1, _, h3⟩, ⟨h4, _⟩, ⟨h6, _, _⟩⟩ := hinv
  have hslot : f._curSlotNo = constr._maxSlots := by
    simpa [PartSol.isFinished, Constr.isMaxSlots] using hfin
  rw [PartSol.getSolution] at hsol
  subst hsol
  refine ⟨by rw [h1, hslot], h3, ?_, h6⟩
  refine List.Subperm.trans ?_ h4.subperm
  rw [List.append_assoc]
  exact (List.sublist_append_left _ _).subperm

theorem length_flatten_of_full (t : TimeTable) (m : Int)
    (h : ∀ slot ∈ t, (slot.length : Int) = m) : (t.flatten.length : Int) = t.length * m := by
  induction t with
  | nil => simp
  | cons slot t ih =>
    have h1 := h slot (List.mem_cons_self _ _)
    have h2 := ih (fun sl hsl => h sl (List.mem_cons_of_mem _ hsl))
    simp only [List.flatten_cons, List.length_append, List.length_cons]
    push_cast
    rw [h1, h2]
    ring

theorem generate_new_length (constr : Constr) (allTalks : TalkList) {fuel : Nat}
    {res : List TimeTable} (h : generate constr fuel (PartSol.new allTalks) = some res)
    (t : TimeTable) (ht : t ∈ res) :
    (t.flatten.length : Int) = constr._maxSlots * constr._maxTracks := by
  obtain ⟨h1, h2, _, _⟩ := generate_new_props constr allTalks h t ht
  rw [length_flatten_of_full t _ h2, h1]

/-- With fewer talks than tracks in all the slots the search finds nothing. -/
theorem generate_new_eq_nil (constr : Constr) (allTalks : TalkList) {fuel : Nat}
    {res : List TimeTable} (h : generate constr fuel (PartSol.new allTalks) = some res)
    (hshort : (allTalks.length : Int) < constr._maxSlots * constr._maxTracks) : res = [] := by
  cases res with
  | nil => rfl
  | cons t ts =>
    exfalso
    have h1 := generate_new_length constr allTalks h t (List.mem_cons_self _ _)
    obtain ⟨_, _, h2, _⟩ := generate_new_props constr allTalks h t (List.mem_cons_self _ _)
    have h3 := h2.length_le
    omega

theorem clashFree_persons {maxSlots maxTracks : Int} {persons : Persons} {slot : TalkList}
    (h : ClashFree (Constr.new maxSlots maxTracks persons) slot) :
    ∀ a ∈ slot, ∀ b ∈ slot, a ≠ b →
      ∀ person ∈ persons, ¬ (a ∈ person._talks ∧ b ∈ person._talks) := by
  intro a ha b hb hab person hperson hboth
  rcases h a ha b hb hab with h1 | h1
  · exact h1 (mem_clashesWith_of_ne hperson hboth.1 hboth.2 hab)
  · exact h1 (mem_clashesWith_of_ne hperson hboth.2 hboth.1 (Ne.symm hab))

end Timetable.Original

/-! ## The lazy program and its relation to the eager program -/

namespace Timetable

theorem wrapInt_zero : wrapInt 0 = 0 := by decide

theorem wrapInt_one : wrapInt 1 = 1 := by decide

theorem wrapInt_wrapInt (a : Int) : wrapInt (wrapInt a) = wrapInt a := by
  unfold wrapInt; omega

theorem wrapInt_add_left (a b : Int) : wrapInt (wrapInt a + b) = wrapInt (a + b) := by
  unfold wrapInt; omega

theorem wrapInt_add_congr {a a' b b' : Int} (ha : wrapInt a = wrapInt a')
    (hb : wrapInt b = wrapInt b') : wrapInt (a + b) = wrapInt (a' + b') := by
  unfold wrapInt at *; omega

/-- An exact result in the range of `int` is the value the `int` holds. -/
theorem wrapInt_of_fits {x : Int} (h0 : -2147483648 ≤ x) (h1 : x < 2147483648) :
    wrapInt x = x := by
  unfold wrapInt; omega

theorem wrapInt_fits (x : Int) : -2147483648 ≤ wrapInt x ∧ wrapInt x < 2147483648 := by
  unfold wrapInt; omega

/-- The loop that adds up `int` counts holds the exact sum reduced into `int`. -/
theorem foldl_wrap_add (ns : List Int) (c : Int) :
    ns.foldl (fun candts n => wrapInt (candts + n)) (wrapInt c) = wrapInt (c + ns.sum) := by
  induction ns generalizing c with
  | nil => simp
  | cons n ns ih =>
    rw [List.foldl_cons, wrapInt_add_left, ih, List.sum_cons, add_assoc]

theorem foldl_wrap_add_zero (ns : List Int) :
    ns.foldl (fun candts n => wrapInt (candts + n)) 0 = wrapInt ns.sum := by
  have h := foldl_wrap_add ns 0
  rwa [wrapInt_zero, zero_add] at h

/-- Reducing the summands into `int` first does not change the reduced sum. -/
theorem allSome_map_wrap_sum {α : Type} (g : α → Option Int) (xs : List α) :
    (allSome (xs.map (fun x => (g x).map wrapInt))).map (fun ns => wrapInt ns.sum) =
      (allSome (xs.map g)).map (fun ns => wrapInt ns.sum) := by
  induction xs with
  | nil => rfl
  | cons x xs ih =>
    simp only [List.map_cons]
    cases hg : g x with
    | none => simp [allSome]
    | some a =>
      cases h1 : allSome (xs.map g) with
      | none =>
        rw [h1] at ih
        have h2 : allSome (xs.map (fun x => (g x).map wrapInt)) = none := by
          simpa using ih
        simp [allSome, h1, h2]
      | some ns =>
        rw [h1] at ih
        obtain ⟨ns', h2, h3⟩ := Option.map_eq_some'.1 ih
        simp only [allSome, h1, h2, Option.map_some', List.sum_cons, Option.some.injEq]
        exact wrapInt_add_congr (wrapInt_wrapInt a) h3

theorem foldl_add_eq_sum (ns : List Int) (c : Int) :
    ns.foldl (fun candts n => candts + n) c = c + ns.sum := by
  induction ns generalizing c with
  | nil => simp
  | cons n ns ih => simp [ih, add_assoc]

theorem allSome_map_length_flatten {α β : Type} (g : α → Option (List β)) (xs : List α) :
    (allSome (xs.map g)).map (fun rs => (rs.flatten.length : Int)) =
      (allSome (xs.map (fun x => (g x).map (fun r => (r.length : Int))))).map List.sum := by
  induction xs with
  | nil => simp [allSome]
  | cons x xs ih =>
    simp only [List.map_cons]
    cases hg : g x with
    | none => simp [allSome]
    | some r =>
      cases h1 : allSome (xs.map g) with
      | none =>
        rw [h1] at ih
        have h2 : allSome (xs.map (fun x => (g x).map (fun r => (r.length : Int)))) = none := by
          simpa using ih.symm
        simp [allSome, h1, h2]
      | some rs =>
        rw [h1] at ih
        obtain ⟨ns, h2, h3⟩ := Option.map_eq_some'.1 ih.symm
        simp only [allSome, h1, Option.map_some', h2, List.flatten_cons, List.length_append,
          List.sum_cons, Option.some.injEq]
        rw [h3]
        push_cast
        rfl

theorem allSome_perm_sum {os os' : List (Option Int)} (h : os.Perm os') :
    (allSome os).map List.sum = (allSome os').map List.sum := by
  induction h with
  | nil => rfl
  | cons o hp ih =>
    rename_i l1 l2
    cases o with
    | none => simp [allSome]
    | some n =>
      cases h1 : allSome l1 <;> cases h2 : allSome l2 <;> simp_all [allSome]
  | swap a b l =>
    cases a <;> cases b <;> cases h : allSome l <;> simp [allSome, h, add_left_comm]
  | trans _ _ ih1 ih2 => exact ih1.trans ih2

namespace Lazy

theorem PartSlot.refineSlot_eq_map (s : PartSlot) (candts : TalkList) (constr : Constr) :
    s.refineSlot candts constr = candts.map (s.place constr) := by
  induction candts with
  | nil => rfl
  | cons tk candts ih =>
    rw [PartSlot.refineSlot, ih]
    rfl

theorem lazy_generate_zero (constr : Constr) (part : PartSlot) : generate constr 0 part = none := rfl

theorem lazy_generate_succ (constr : Constr) (fuel : Nat) (part : PartSlot) :
    generate constr (fuel + 1) part =
      if part.isFinished constr then some 1
      else (allSome ((part.refine constr).map (generate constr fuel))).map
        (fun ns => wrapInt ns.sum) := by
  rw [generate]
  split
  · rfl
  · rw [foldl_lift2]
    cases allSome ((part.refine constr).map (generate constr fuel)) <;>
      simp [lift2, foldl_wrap_add_zero]

/-- The lazy search counts the timetables that the eager search lists, from states
that stand for the same position, whenever the two constraints have the same limits
and the same clash sets; the count is held in an `int`. -/
theorem generate_eq_length (lc : Constr) (oc : Original.Constr)
    (hslots : lc._maxSlots = oc._maxSlots) (htracks : lc._maxTracks = oc._maxTracks)
    (hclash : ∀ t, lc.clashesWith t = oc.clashesWith t) :
    ∀ (fuel : Nat) (l : PartSlot) (o : Original.PartSol), Sim l o →
      generate lc fuel l =
        (Original.generate oc fuel o).map (fun res => wrapInt (res.length : Int)) := by
  intro fuel
  induction fuel with
  | zero => intro l o _; rfl
  | succ fuel ih =>
    intro l o hsim
    obtain ⟨h1, h2, h3, h4⟩ := hsim
    rw [lazy_generate_succ, Original.generate_succ]
    have hfin : l.isFinished lc = o.isFinished oc := by
      simp [PartSlot.isFinished, Constr.isMaxSlots, Original.PartSol.isFinished,
        Original.Constr.isMaxSlots, hslots, h3]
    rw [hfin]
    by_cases hf : o.isFinished oc = true
    · rw [if_pos hf, if_pos hf]
      simp [wrapInt_one]
    · rw [if_neg hf, if_neg hf, Option.map_map]
      have hrhs : Option.map ((fun res : List TimeTable => wrapInt (res.length : Int)) ∘ List.flatten)
            (allSome ((o.refine oc).map (Original.generate oc fuel)))
          = Option.map (fun ns => wrapInt ns.sum)
            (allSome ((o.refine oc).map
              (fun x => (Original.generate oc fuel x).map (fun r => wrapInt (r.length : Int))))) := by
        have h5 := congrArg (Option.map wrapInt)
          (allSome_map_length_flatten (Original.generate oc fuel) (o.refine oc))
        rw [Option.map_map, Option.map_map] at h5
        have h6 := allSome_map_wrap_sum
          (fun x => (Original.generate oc fuel x).map (fun r => (r.length : Int))) (o.refine oc)
        simp only [Option.map_map] at h6
        exact h5.trans h6.symm
      rw [hrhs]
      have hperm : ∀ os os' : List (Option Int), os.Perm os' →
          Option.map (fun ns => wrapInt ns.sum) (allSome os)
            = Option.map (fun ns => wrapInt ns.sum) (allSome os') := by
        intro os os' hp
        have h7 := congrArg (Option.map wrapInt) (allSome_perm_sum hp)
        rwa [Option.map_map, Option.map_map] at h7
      apply hperm
      have htr : lc.isMaxTracks l._curTrackNo = o._partSlot.isFinished oc := by
        simp [Constr.isMaxTracks, Original.PartSlot.isFinished, Original.Constr.isMaxTracks,
          htracks, h1]
      by_cases hslot : o._partSlot.isFinished oc = true
      · rw [Original.PartSol.refine_of_finished o oc hslot]
        unfold PartSlot.refine
        rw [if_pos (by rw [htr]; exact hslot)]
        simp only [List.map_cons, List.map_nil]
        rw [ih _ _ ?_]
        refine ⟨rfl, ?_, ?_, ?_⟩
        · simp only [PartSlot.new, PartSol.fillSlot, Original.PartSol.new3, Original.PartSlot.new]
          rw [h4]
        · simp [PartSlot.new, PartSol.fillSlot, Original.PartSol.new3, h3]
        · simp [PartSlot.new, PartSol.fillSlot, Original.PartSol.new3, h4]
      · have hslot' : o._partSlot.isFinished oc = false := by simpa using hslot
        rw [Original.PartSol.refine_of_not_finished o oc hslot']
        unfold PartSlot.refine
        rw [if_neg (by rw [htr]; exact hslot), PartSlot.refineSlot_eq_map, List.map_map,
          List.map_map]
        have hcongr : (Original.selects o._partSlot._talksForSlot).map
              ((fun x => (Original.generate oc fuel x).map (fun r => wrapInt (r.length : Int)))
                ∘ o.place oc)
            = (Original.selects o._partSlot._talksForSlot).map
              ((generate lc fuel ∘ l.place lc) ∘ Prod.fst) := by
          apply List.map_congr_left
          intro p hp
          simp only [Function.comp]
          rw [ih (l.place lc p.1) (o.place oc p) ?_]
          refine ⟨?_, ?_, h3, ?_⟩
          · simp [PartSlot.place, Original.PartSol.place, h1]
          · simp only [PartSlot.place, Original.PartSol.place, diff, remove1, hclash]
            apply List.Perm.filter
            exact (h2.erase p.1).trans (Original.selects_perm_erase hp).symm
          · simp [PartSlot.place, Original.PartSol.place, PartSol.removeTalk, h4]
        rw [hcongr,
          List.comp_map (generate lc fuel ∘ l.place lc) Prod.fst, Original.selects_map_fst]
        exact h2.map _

theorem sim_toOriginal (l : PartSlot) : Sim l l.toOriginal :=
  ⟨rfl, List.Perm.refl _, rfl, rfl⟩

theorem generate_eq_length_toOriginal (constr : Constr) (fuel : Nat) (l : PartSlot) :
    generate constr fuel l =
      (Original.generate constr.toOriginal fuel l.toOriginal).map
        (fun res => wrapInt (res.length : Int)) :=
  generate_eq_length constr constr.toOriginal rfl rfl (fun _ => rfl) fuel l l.toOriginal
    (sim_toOriginal l)

theorem lazy_generate_terminates (constr : Constr) (s : PartSlot)
    (hle : s._partSol._curSlotNo ≤ constr._maxSlots) :
    ∃ fuel n, generate constr fuel s = some n := by
  have h := Original.generate_terminates constr.toOriginal
    (s.toOriginal.measure constr.toOriginal + 1) s.toOriginal hle (Nat.lt_succ_self _)
  obtain ⟨res, hres⟩ := Option.isSome_iff_exists.1 h
  exact ⟨_, wrapInt (res.length : Int), by rw [generate_eq_length_toOriginal, hres]; rfl⟩

theorem lazy_when_all_vec_eq {α : Type} (ftrs : List α) : when_all_vec ftrs = ftrs := by
  unfold when_all_vec
  rw [foldl_push_front]
  simp

theorem lazy_generatePar_zero (constr : Constr) (depth : Int) (part : PartSlot) :
    generatePar constr 0 depth part = none := rfl

theorem lazy_generatePar_succ (constr : Constr) (fuel : Nat) (depth : Int) (part : PartSlot) :
    generatePar constr (fuel + 1) depth part =
      if depth = 0 then generate constr (fuel + 1) part
      else if part.isFinished constr then some 1
      else (allSome ((part.refine constr).map (generatePar constr fuel (depth - 1)))).map
        (fun ns => wrapInt ns.sum) := by
  rw [generatePar]
  split
  · rfl
  · split
    · rfl
    · simp only [foldl_lift2]
      cases allSome ((part.refine constr).map (generatePar constr fuel (depth - 1))) <;>
        simp [lift2, foldl_push_back, lazy_when_all_vec_eq, foldl_wrap_add_zero]

theorem generatePar_eq_generate (constr : Constr) :
    ∀ (fuel : Nat) (depth : Int) (part : PartSlot),
      generatePar constr fuel depth part = generate constr fuel part := by
  intro fuel
  induction fuel with
  | zero => intro depth part; rfl
  | succ fuel ih =>
    intro depth part
    rw [lazy_generatePar_succ]
    by_cases hd : depth = 0
    · rw [if_pos hd]
    · rw [if_neg hd, lazy_generate_succ]
      have : generatePar constr fuel (depth - 1) = generate constr fuel := funext (ih (depth - 1))
      rw [this]

end Lazy

end Timetable

/-! ## The eager program: every admissible table is reached -/

namespace Timetable.Original

theorem PartSol.new_eq_new3 (allTalks : TalkList) : PartSol.new allTalks = PartSol.new3 0 [] allTalks :=
  rfl

theorem mem_foldl_remove1 (chosen : List Talk) (rem : TalkList) (x : Talk)
    (hx : x ∈ rem) (hnot : x ∉ chosen) : x ∈ chosen.foldl remove1 rem := by
  induction chosen generalizing rem with
  | nil => exact hx
  | cons c cs ih =>
    rw [List.foldl_cons]
    have hne : x ≠ c := fun h => hnot (h ▸ List.mem_cons_self _ _)
    exact ih _ ((List.mem_erase_of_ne hne).2 hx) (fun h => hnot (List.mem_cons_of_mem _ h))

/-- Filling the current slot: the talks of `chosen` can be placed one after the
other when they are different, eligible, and none is in the clash set of an
earlier one. -/
theorem reach_fill (constr : Constr) (chosen : List Talk) :
    ∀ s : PartSol, s.isFinished constr = false →
      s._partSlot._curTrackNo + chosen.length = constr._maxTracks →
      chosen.Nodup → (∀ x ∈ chosen, x ∈ s._partSlot._talksForSlot) →
      chosen.Pairwise (fun a b => b ∉ constr.clashesWith a) →
      ∃ f, Reach constr s f ∧ f._curSlotNo = s._curSlotNo ∧
        f._partSlot._curTrackNo = constr._maxTracks ∧
        f._partSlot._talksInSlot = chosen.reverse ++ s._partSlot._talksInSlot ∧
        f._remainingTalks = chosen.foldl remove1 s._remainingTalks ∧
        f._tableSoFar = s._tableSoFar := by
  induction chosen with
  | nil =>
    intro s _ htrack _ _ _
    exact ⟨s, Reach.refl s, rfl, by simpa using htrack, by simp, rfl, rfl⟩
  | cons c cs ih =>
    intro s hnot htrack hnd hmem hpair
    have hslot : s._partSlot.isFinished constr = false := by
      simp only [PartSlot.isFinished, Constr.isMaxTracks, decide_eq_false_iff_not]
      simp only [List.length_cons] at htrack
      push_cast at htrack
      omega
    obtain ⟨rest, hrest⟩ := exists_mem_selects (hmem c (List.mem_cons_self _ _))
    have hs' : s.place constr (c, rest) ∈ s.refine constr := by
      rw [PartSol.refine_of_not_finished s constr hslot]
      exact List.mem_map_of_mem _ hrest
    rw [List.nodup_cons] at hnd
    rw [List.pairwise_cons] at hpair
    obtain ⟨f, hreach, h1, h2, h3, h4, h5⟩ := ih (s.place constr (c, rest)) hnot
      (by simp only [PartSol.place, List.length_cons] at htrack ⊢; push_cast at htrack; omega)
      hnd.2
      (by
        intro x hx
        simp only [PartSol.place, mem_diff_iff]
        refine ⟨?_, hpair.1 x hx⟩
        have hx' := (selects_perm hrest).symm.subset (hmem x (List.mem_cons_of_mem _ hx))
        rcases List.mem_cons.1 hx' with rfl | hx''
        · exact absurd hx hnd.1
        · exact hx'')
      hpair.2
    refine ⟨f, Reach.step s _ f hnot hs' hreach, h1, h2, ?_, ?_, h5⟩
    · rw [h3]; simp [PartSol.place]
    · rw [h4]; simp [PartSol.place]

/-- Filling slot after slot: the slots of `slots`, each listed in the order in which
its talks are placed, can be filled one after the other. -/
theorem reach_slots (constr : Constr) (slots : List (List Talk)) :
    ∀ (n : Int) (table : TimeTable) (rem : TalkList),
      n + slots.length = constr._maxSlots →
      (∀ slot ∈ slots, (slot.length : Int) = constr._maxTracks) →
      slots.flatten.Nodup → (∀ x ∈ slots.flatten, x ∈ rem) →
      (∀ slot ∈ slots, slot.Pairwise (fun a b => b ∉ constr.clashesWith a)) →
      ∃ f, Reach constr (PartSol.new3 n table rem) f ∧ f._curSlotNo = constr._maxSlots ∧
        f._tableSoFar = (slots.map List.reverse).reverse ++ table := by
  induction slots with
  | nil =>
    intro n table rem hn _ _ _ _
    exact ⟨_, Reach.refl _, by simpa [PartSol.new3] using hn, by simp [PartSol.new3]⟩
  | cons slot slots ih =>
    intro n table rem hn hfull hnd hmem hpair
    have hnot : (PartSol.new3 n table rem).isFinished constr = false := by
      simp only [PartSol.isFinished, Constr.isMaxSlots, PartSol.new3, decide_eq_false_iff_not]
      simp only [List.length_cons] at hn
      push_cast at hn
      omega
    rw [List.flatten_cons, List.nodup_append] at hnd
    obtain ⟨f1, hreach1, h1, h2, h3, h4, h5⟩ := reach_fill constr slot (PartSol.new3 n table rem)
      hnot
      (by simpa [PartSol.new3, PartSlot.new] using hfull slot (List.mem_cons_self _ _))
      hnd.1
      (fun x hx => hmem x (by simp [hx]))
      (hpair slot (List.mem_cons_self _ _))
    have hnot1 : f1.isFinished constr = false := by
      simpa [PartSol.isFinished, h1] using hnot
    have hstep : PartSol.new3 (n + 1) (slot.reverse :: table) (slot.foldl remove1 rem)
        ∈ f1.refine constr := by
      rw [PartSol.refine_of_finished f1 constr
        (by simp [PartSlot.isFinished, Constr.isMaxTracks, h2])]
      rw [h1, h3, h4, h5]
      simp [PartSol.new3, PartSlot.new]
    obtain ⟨f, hreach, h6, h7⟩ := ih (n + 1) (slot.reverse :: table) (slot.foldl remove1 rem)
      (by simp only [List.length_cons] at hn; push_cast at hn; omega)
      (fun sl hsl => hfull sl (List.mem_cons_of_mem _ hsl))
      hnd.2.1
      (by
        intro x hx
        refine mem_foldl_remove1 slot rem x (hmem x (by simp [hx])) ?_
        intro hxs
        exact hnd.2.2 hxs hx)
      (fun sl hsl => hpair sl (List.mem_cons_of_mem _ hsl))
    refine ⟨f, Reach.trans constr hreach1 (Reach.step f1 _ f hnot1 hstep hreach), h6, ?_⟩
    rw [h7]
    simp

theorem forall₂_perm_map_reverse (table : TimeTable) :
    List.Forall₂ List.Perm (table.map List.reverse) table := by
  induction table with
  | nil => exact List.Forall₂.nil
  | cons t ts ih => exact List.Forall₂.cons (List.reverse_perm t) ih

/-- Every table of the right shape whose talks are different talks of the talk list
and whose slots hold no two talks of one person is the table of a finished state
reached from the initial state. -/
theorem reach_table (persons : Persons) (allTalks : TalkList) (maxTracks maxSlots : Int)
    (table : TimeTable)
    (hlen : (table.length : Int) = maxSlots)
    (hfull : ∀ slot ∈ table, (slot.length : Int) = maxTracks)
    (hnd : table.flatten.Nodup)
    (hmem : ∀ t ∈ table.flatten, t ∈ allTalks)
    (hclash : ∀ slot ∈ table, ∀ a ∈ slot, ∀ b ∈ slot, a ≠ b →
      ∀ person ∈ persons, ¬ (a ∈ person._talks ∧ b ∈ person._talks)) :
    ∃ f, Reach (Constr.new maxSlots maxTracks persons) (PartSol.new allTalks) f ∧
      f.isFinished (Constr.new maxSlots maxTracks persons) = true ∧ f.getSolution = table := by
  have hperm : ((table.map List.reverse).reverse).flatten.Perm table.flatten :=
    ((List.reverse_perm _).flatten).trans (List.Perm.flatten_congr (forall₂_perm_map_reverse table))
  obtain ⟨f, hreach, h1, h2⟩ := reach_slots (Constr.new maxSlots maxTracks persons)
    ((table.map List.reverse).reverse) 0 [] allTalks
    (by simp [Constr.new, hlen])
    (by
      intro slot hslot
      simp only [List.mem_reverse, List.mem_map] at hslot
      obtain ⟨t, ht, rfl⟩ := hslot
      simpa [Constr.new] using hfull t ht)
    (hperm.nodup_iff.2 hnd)
    (fun x hx => hmem x (hperm.subset hx))
    (by
      intro slot hslot
      simp only [List.mem_reverse, List.mem_map] at hslot
      obtain ⟨t, ht, rfl⟩ := hslot
      have htnd : t.reverse.Nodup :=
        List.nodup_reverse.2 ((List.nodup_flatten.1 hnd).1 t ht)
      refine List.Pairwise.imp_of_mem ?_ htnd
      intro a b ha hb hab hin
      obtain ⟨person, hperson, hpa, hpb⟩ := mem_of_mem_clashesWith hin
      exact hclash t ht a (List.mem_reverse.1 ha) b (List.mem_reverse.1 hb) hab person hperson
        ⟨hpa, hpb⟩)
  refine ⟨f, hreach, ?_, ?_⟩
  · simp [PartSol.isFinished, Constr.isMaxSlots, h1]
  · rw [PartSol.getSolution, h2]
    simp [List.map_reverse, Function.comp_def]

end Timetable.Original

/-! ## Accounting in both programs -/

namespace Timetable

namespace Original

theorem refines_invariant (constr : Constr) (I : PartSol → Prop)
    (hstep : ∀ s, I s → ∀ s' ∈ s.refine constr, I s')
    {s f : PartSol} (h : Refines constr s f) (hs : I s) : I f := by
  induction h with
  | refl s => exact hs
  | step s s' f hmem _ ih => exact ih (hstep s hs s' hmem)

/-- A step of `refine` keeps the accounting invariant, from any state. -/
theorem accountInv_refine (constr : Constr) (allTalks : TalkList) (s : PartSol)
    (hs : AccountInv allTalks s) (s' : PartSol) (hs' : s' ∈ s.refine constr) :
    AccountInv allTalks s' := by
  obtain ⟨h1, h2⟩ := hs
  by_cases hslot : s._partSlot.isFinished constr = true
  · rw [PartSol.refine_of_finished s constr hslot, List.mem_singleton] at hs'
    subst hs'
    refine ⟨?_, List.Subperm.refl _⟩
    refine List.Perm.trans ?_ h1
    simp only [PartSol.new3, PartSlot.new, List.flatten_cons, List.append_nil]
    exact List.Perm.append_right _ List.perm_append_comm
  · have hslot' : s._partSlot.isFinished constr = false := by simpa using hslot
    rw [PartSol.refine_of_not_finished s constr hslot', List.mem_map] at hs'
    obtain ⟨p, hp, rfl⟩ := hs'
    have hmem : p.1 ∈ s._remainingTalks := h2.subset (selects_fst_mem hp)
    refine ⟨?_, ?_⟩
    · refine List.Perm.trans ?_ h1
      simp only [PartSol.place, remove1, List.append_assoc]
      refine List.Perm.append_left _ ?_
      refine List.Perm.trans ?_
        (List.Perm.append_left s._partSlot._talksInSlot (List.perm_cons_erase hmem).symm)
      simp only [List.cons_append]
      exact List.perm_middle.symm
    · simp only [PartSol.place, remove1, diff]
      refine List.Subperm.trans (List.filter_sublist _).subperm ?_
      exact ((selects_perm_erase hp).subperm).trans (h2.erase p.1)

end Original

namespace Lazy

theorem lazyRefines_invariant (constr : Constr) (I : PartSlot → Prop)
    (hstep : ∀ s, I s → ∀ s' ∈ s.refine constr, I s')
    {s f : PartSlot} (h : LazyRefines constr s f) (hs : I s) : I f := by
  induction h with
  | refl s => exact hs
  | step s s' f hmem _ ih => exact ih (hstep s hs s' hmem)

theorem PartSlot.refine_of_maxTracks (s : PartSlot) (constr : Constr)
    (h : constr.isMaxTracks s._curTrackNo = true) :
    s.refine constr = [PartSlot.new (s._partSol.fillSlot s._talksInSlot)] := by
  unfold PartSlot.refine
  rw [if_pos h]

theorem PartSlot.refine_of_not_maxTracks (s : PartSlot) (constr : Constr)
    (h : constr.isMaxTracks s._curTrackNo = false) :
    s.refine constr = s._talksForSlot.map (s.place constr) := by
  unfold PartSlot.refine
  rw [if_neg (by simp [h]), PartSlot.refineSlot_eq_map]

theorem lazyAccountInv_init (allTalks : TalkList) :
    LazyAccountInv allTalks (PartSlot.new (PartSol.new allTalks)) := by
  refine ⟨?_, List.Subperm.refl _⟩
  simp [PartSlot.new, PartSol.new]

theorem lazyAccountInv_refine (constr : Constr) (allTalks : TalkList) (s : PartSlot)
    (hs : LazyAccountInv allTalks s) (s' : PartSlot) (hs' : s' ∈ s.refine constr) :
    LazyAccountInv allTalks s' := by
  obtain ⟨h1, h2⟩ := hs
  by_cases hslot : constr.isMaxTracks s._curTrackNo = true
  · rw [PartSlot.refine_of_maxTracks s constr hslot, List.mem_singleton] at hs'
    subst hs'
    refine ⟨?_, List.Subperm.refl _⟩
    refine List.Perm.trans ?_ h1
    simp only [PartSlot.new, PartSol.fillSlot, List.flatten_cons, List.append_nil]
    exact List.Perm.append_right _ List.perm_append_comm
  · have hslot' : constr.isMaxTracks s._curTrackNo = false := by simpa using hslot
    rw [PartSlot.refine_of_not_maxTracks s constr hslot', List.mem_map] at hs'
    obtain ⟨tk, htk, rfl⟩ := hs'
    have hmem : tk ∈ s._partSol._remainingTalks := h2.subset htk
    refine ⟨?_, ?_⟩
    · refine List.Perm.trans ?_ h1
      simp only [PartSlot.place, PartSol.removeTalk, remove1, List.append_assoc]
      refine List.Perm.append_left _ ?_
      refine List.Perm.trans ?_
        (List.Perm.append_left s._talksInSlot (List.perm_cons_erase hmem).symm)
      simp only [List.cons_append]
      exact List.perm_middle.symm
    · simp only [PartSlot.place, PartSol.removeTalk, remove1, diff]
      exact List.Subperm.trans (List.filter_sublist _).subperm (h2.erase tk)

end Lazy

end Timetable

/-! ## Transition rules, branching order, termination measure -/

namespace Timetable

namespace Original

theorem refine_lexMeasure_lt (constr : Constr) (s : PartSol)
    (hle : s._curSlotNo ≤ constr._maxSlots) (hnot : s.isFinished constr = false)
    (s' : PartSol) (hs' : s' ∈ s.refine constr) :
    s'._curSlotNo ≤ constr._maxSlots ∧
      Prod.Lex (fun a b : Nat => a < b) (fun a b : Nat => a < b)
        (s'.lexMeasure constr) (s.lexMeasure constr) := by
  have hne : s._curSlotNo ≠ constr._maxSlots := by
    simpa [PartSol.isFinished, Constr.isMaxSlots] using hnot
  by_cases hslot : s._partSlot.isFinished constr = true
  · rw [PartSol.refine_of_finished s constr hslot, List.mem_singleton] at hs'
    subst hs'
    refine ⟨by simp only [PartSol.new3]; omega, ?_⟩
    apply Prod.Lex.left
    simp only [PartSol.new3]
    omega
  · have hslot' : s._partSlot.isFinished constr = false := by simpa using hslot
    rw [PartSol.refine_of_not_finished s constr hslot', List.mem_map] at hs'
    obtain ⟨p, hp, rfl⟩ := hs'
    refine ⟨hle, ?_⟩
    have hlen : p.2.length + 1 = s._partSlot._talksForSlot.length := by
      have := (selects_perm hp).length_eq
      simpa using this
    have h1 : (diff p.2 (constr.clashesWith p.1)).length ≤ p.2.length :=
      List.length_filter_le _ _
    have hfst : ((s.place constr p).lexMeasure constr).1 = (s.lexMeasure constr).1 := rfl
    rw [Prod.lex_def]
    right
    refine ⟨hfst, ?_⟩
    simp only [PartSol.lexMeasure, PartSol.place, hslot', Bool.false_eq_true, if_false]
    split <;> omega

end Original

namespace Lazy

theorem lazy_refine_lexMeasure_lt (constr : Constr) (s : PartSlot)
    (hle : s._partSol._curSlotNo ≤ constr._maxSlots) (hnot : s.isFinished constr = false)
    (s' : PartSlot) (hs' : s' ∈ s.refine constr) :
    s'._partSol._curSlotNo ≤ constr._maxSlots ∧
      Prod.Lex (fun a b : Nat => a < b) (fun a b : Nat => a < b)
        (s'.lexMeasure constr) (s.lexMeasure constr) := by
  have hne : s._partSol._curSlotNo ≠ constr._maxSlots := by
    simpa [PartSlot.isFinished, Constr.isMaxSlots] using hnot
  by_cases hslot : constr.isMaxTracks s._curTrackNo = true
  · rw [PartSlot.refine_of_maxTracks s constr hslot, List.mem_singleton] at hs'
    subst hs'
    refine ⟨by simp only [PartSlot.new, PartSol.fillSlot]; omega, ?_⟩
    apply Prod.Lex.left
    simp only [PartSlot.new, PartSol.fillSlot]
    omega
  · have hslot' : constr.isMaxTracks s._curTrackNo = false := by simpa using hslot
    rw [PartSlot.refine_of_not_maxTracks s constr hslot', List.mem_map] at hs'
    obtain ⟨tk, htk, rfl⟩ := hs'
    refine ⟨hle, ?_⟩
    have h1 : (diff (remove1 s._talksForSlot tk) (constr.clashesWith tk)).length
        ≤ (remove1 s._talksForSlot tk).length := List.length_filter_le _ _
    have h2 : (remove1 s._talksForSlot tk).length + 1 = s._talksForSlot.length := by
      unfold remove1
      rw [List.length_erase_of_mem htk]
      have := List.length_pos_of_mem htk
      omega
    have hfst : ((s.place constr tk).lexMeasure constr).1 = (s.lexMeasure constr).1 := rfl
    rw [Prod.lex_def]
    right
    refine ⟨hfst, ?_⟩
    simp only [PartSlot.lexMeasure, PartSlot.place, hslot', Bool.false_eq_true, if_false]
    split <;> omega

theorem lazy_generate_functional (constr : Constr) {fuel fuel' : Nat} {s : PartSlot}
    {n n' : Int} (h : generate constr fuel s = some n) (h' : generate constr fuel' s = some n') :
    n = n' := by
  rw [generate_eq_length_toOriginal] at h h'
  obtain ⟨res, hres, rfl⟩ := Option.map_eq_some'.1 h
  obtain ⟨res', hres', rfl⟩ := Option.map_eq_some'.1 h'
  rw [Original.generate_functional _ hres hres']

end Lazy

end Timetable

/-! ## Counting without clashes, and with a person who attends every talk -/

namespace Timetable

theorem diff_empty (l : TalkList) : diff l ∅ = l := by
  simp [diff]

namespace Original

theorem selects_length {α : Type} (lst : List α) : (selects lst).length = lst.length := by
  have h := congrArg List.length (selects_map_fst lst)
  simpa using h

/-- Without clashes, from a state whose eligible talks are its remaining talks (in
any order), the eager search finds as many timetables as there are ways to pick the
talks still needed, in order, among the remaining ones. -/
theorem count_no_clash (constr : Constr) (hclash : ∀ t, constr.clashesWith t = ∅)
    (hmt : 0 ≤ constr._maxTracks) :
    ∀ (fuel : Nat) (s : PartSol) (res : List TimeTable),
      s._partSlot._talksForSlot.Perm s._remainingTalks →
      s._curSlotNo ≤ constr._maxSlots →
      0 ≤ s._partSlot._curTrackNo → s._partSlot._curTrackNo ≤ constr._maxTracks →
      generate constr fuel s = some res →
      res.length = s._remainingTalks.length.descFactorial (s.needed constr) := by
  intro fuel
  induction fuel with
  | zero => intro s res _ _ _ _ h; simp [generate_zero] at h
  | succ fuel ih =>
    intro s res hfor hle h0 htr h
    rw [generate_succ] at h
    by_cases hfin : s.isFinished constr = true
    · rw [if_pos hfin] at h
      have hslot : s._curSlotNo = constr._maxSlots := by
        simpa [PartSol.isFinished, Constr.isMaxSlots] using hfin
      have hneed : s.needed constr = 0 := by
        simp only [PartSol.needed, hslot, sub_self, zero_mul]
        omega
      rw [hneed, Nat.descFactorial_zero, ← Option.some.inj h]
      rfl
    · rw [if_neg hfin] at h
      have hslot : s._curSlotNo ≠ constr._maxSlots := by
        simpa [PartSol.isFinished, Constr.isMaxSlots] using hfin
      obtain ⟨rs, hrs, rfl⟩ := Option.map_eq_some'.1 h
      have hmap := (allSome_eq_some_iff _ _).1 hrs
      by_cases hmax : s._partSlot.isFinished constr = true
      · have htrack : s._partSlot._curTrackNo = constr._maxTracks := by
          simpa [PartSlot.isFinished, Constr.isMaxTracks] using hmax
        rw [PartSol.refine_of_finished s constr hmax] at hmap
        cases rs with
        | nil => simp at hmap
        | cons r rs' =>
          simp only [List.map_cons, List.map_nil, List.cons.injEq] at hmap
          obtain ⟨hr, hrs'⟩ := hmap
          have hnil : rs' = [] := by simpa using hrs'.symm
          subst hnil
          have := ih _ r (List.Perm.refl _) (by simp only [PartSol.new3]; omega)
            (by simp [PartSol.new3, PartSlot.new]) (by simpa [PartSol.new3, PartSlot.new] using hmt)
            hr
          simp only [List.flatten_cons, List.flatten_nil, List.append_nil]
          rw [this]
          have hneed : (PartSol.new3 (s._curSlotNo + 1)
              (s._partSlot._talksInSlot :: s._tableSoFar) s._remainingTalks).needed constr
              = s.needed constr := by
            simp only [PartSol.needed, PartSol.new3, PartSlot.new, htrack]
            congr 1
            ring
          rw [hneed]
          rfl
      · have hmax' : s._partSlot.isFinished constr = false := by simpa using hmax
        have htrack : s._partSlot._curTrackNo ≠ constr._maxTracks := by
          simpa [PartSlot.isFinished, Constr.isMaxTracks] using hmax'
        rw [PartSol.refine_of_not_finished s constr hmax', List.map_map] at hmap
        have hneed : ∃ m, s.needed constr = m + 1 := by
          refine ⟨s.needed constr - 1, ?_⟩
          have h1 : 1 ≤ constr._maxSlots - s._curSlotNo := by omega
          have h2 : 0 ≤ (constr._maxSlots - s._curSlotNo - 1) * constr._maxTracks :=
            mul_nonneg (by omega) hmt
          have h3 : (constr._maxSlots - s._curSlotNo) * constr._maxTracks
              = (constr._maxSlots - s._curSlotNo - 1) * constr._maxTracks
                + constr._maxTracks := by ring
          simp only [PartSol.needed]
          omega
        obtain ⟨m, hm⟩ := hneed
        have hall : ∀ n' ∈ rs.map List.length,
            n' = (s._remainingTalks.length - 1).descFactorial m := by
          intro n' hn'
          obtain ⟨r, hr, rfl⟩ := List.mem_map.1 hn'
          have hin : some r ∈ List.map (generate constr fuel ∘ s.place constr)
              (selects s._partSlot._talksForSlot) := by
            rw [hmap]; exact List.mem_map_of_mem _ hr
          obtain ⟨p, hp, hgen⟩ := List.mem_map.1 hin
          have hp1 : p.1 ∈ s._remainingTalks := hfor.subset (selects_fst_mem hp)
          have := ih (s.place constr p) r
            (by
              simp only [PartSol.place, hclash, diff_empty, remove1]
              exact (selects_perm_erase hp).trans (hfor.erase p.1))
            hle (by simp only [PartSol.place]; omega) (by simp only [PartSol.place]; omega) hgen
          rw [this]
          have hlen : (s.place constr p)._remainingTalks.length
              = s._remainingTalks.length - 1 := by
            simp [PartSol.place, remove1, List.length_erase_of_mem hp1]
          have hneed' : (s.place constr p).needed constr = m := by
            have : (s.place constr p).needed constr = s.needed constr - 1 := by
              simp only [PartSol.needed, PartSol.place]
              omega
            omega
          rw [hlen, hneed']
        have hlen : (rs.map List.length).length = s._remainingTalks.length := by
          have := congrArg List.length hmap
          simp only [List.length_map, selects_length] at this
          rw [List.length_map, ← this, hfor.length_eq]
        have hrep := List.eq_replicate_iff.2 ⟨hlen, hall⟩
        rw [List.length_flatten, hrep, hm, List.sum_replicate, smul_eq_mul]
        cases hr : s._remainingTalks.length with
        | zero => simp
        | succ r =>
          rw [Nat.succ_descFactorial_succ]
          simp

/-- Without people, `generate` from the initial state of a talk list that fills the
slots exactly finds `n!` timetables, `n` the number of talks. -/
theorem generate_new_length_factorial (persons : Persons)
    (hpers : ∀ person ∈ persons, person._talks = [])
    (talks : TalkList) (maxTracks maxSlots : Int)
    (hms : 0 ≤ maxSlots) (hmt : 0 ≤ maxTracks)
    (hlen : (talks.length : Int) = maxSlots * maxTracks) {fuel : Nat} {res : List TimeTable}
    (h : generate (Constr.new maxSlots maxTracks persons) fuel (PartSol.new talks) = some res) :
    res.length = talks.length.factorial := by
  have hc := count_no_clash (Constr.new maxSlots maxTracks persons)
    (fun t => by
      ext b
      simp only [Finset.not_mem_empty, iff_false]
      intro hb
      obtain ⟨person, hperson, ha, _⟩ := mem_of_mem_clashesWith hb
      rw [hpers person hperson] at ha
      simp at ha)
    hmt fuel _ res (List.Perm.refl _) hms (le_refl _) hmt h
  rw [hc]
  have hneed : (PartSol.new talks).needed (Constr.new maxSlots maxTracks persons)
      = talks.length := by
    simp only [PartSol.needed, PartSol.new, PartSlot.new, Constr.new, sub_zero, ← hlen]
    exact Int.toNat_natCast _
  rw [hneed]
  simp only [PartSol.new]
  rw [Nat.descFactorial_self]

end Original

end Timetable

namespace Timetable

/-- With duplicate-free talk lists of the people, `timeTable` of the lazy program
counts, in an `int`, what `timeTable` of the eager program lists. -/
theorem lazy_timeTable_eq_length (persons : Persons) (talks : TalkList)
    (maxTracks maxSlots : Int) (hpers : ∀ person ∈ persons, person._talks.Nodup) (fuel : Nat) :
    Lazy.timeTable fuel persons talks maxTracks maxSlots false =
      (Original.timeTable fuel persons talks maxTracks maxSlots false).map
        (fun res => wrapInt (res.length : Int)) := by
  simp only [Lazy.timeTable, Original.timeTable, Bool.false_eq_true, if_false]
  refine Lazy.generate_eq_length _ _ rfl rfl ?_ fuel _ _ ⟨rfl, List.Perm.refl _, rfl, rfl⟩
  intro t
  ext b
  rw [Lazy.lazy_mem_clashesWith_iff, Original.mem_clashesWith_iff_of_nodup _ _ _ hpers]

theorem lazy_timeTable_eq_toOriginal (persons : Persons) (talks : TalkList)
    (maxTracks maxSlots : Int) (fuel : Nat) :
    Lazy.timeTable fuel persons talks maxTracks maxSlots false =
      (Original.generate (Lazy.Constr.new maxSlots maxTracks persons).toOriginal fuel
        (Original.PartSol.new talks)).map (fun res => wrapInt (res.length : Int)) := by
  simp only [Lazy.timeTable, Bool.false_eq_true, if_false]
  exact Lazy.generate_eq_length_toOriginal _ fuel _

namespace Original

/-- When any two different talks of the talk list clash, the talk list is
duplicate-free, and there is at least one slot of at least two tracks, the search
finds nothing. -/
theorem generate_new_eq_nil_of_all_clash (constr : Constr) (allTalks : TalkList)
    (hnd : allTalks.Nodup)
    (hclash : ∀ a ∈ allTalks, ∀ b ∈ allTalks, a ≠ b → b ∈ constr.clashesWith a)
    (hms : 1 ≤ constr._maxSlots) (hmt : 1 < constr._maxTracks) {fuel : Nat}
    {res : List TimeTable} (h : generate constr fuel (PartSol.new allTalks) = some res) :
    res = [] := by
  cases res with
  | nil => rfl
  | cons t ts =>
    exfalso
    obtain ⟨h1, h2, h3, h4⟩ := generate_new_props constr allTalks h t (List.mem_cons_self _ _)
    cases t with
    | nil => simp at h1; omega
    | cons slot rest =>
      have hlen := h2 slot (List.mem_cons_self _ _)
      have hsub : ∀ x ∈ slot, x ∈ allTalks := fun x hx =>
        h3.subset (List.mem_flatten.2 ⟨slot, List.mem_cons_self _ _, hx⟩)
      have hslotnd : slot.Nodup := by
        obtain ⟨l, hperm, hsubl⟩ := h3
        exact (List.nodup_flatten.1 (hperm.nodup_iff.1 (hsubl.nodup hnd))).1 slot
          (List.mem_cons_self _ _)
      cases slot with
      | nil => simp at hlen; omega
      | cons a slot' =>
        cases slot' with
        | nil => simp at hlen; omega
        | cons b slot'' =>
          have hab : a ≠ b := by
            intro e
            rw [List.nodup_cons] at hslotnd
            exact hslotnd.1 (e ▸ List.mem_cons_self _ _)
          have ha : a ∈ a :: b :: slot'' := List.mem_cons_self _ _
          have hb : b ∈ a :: b :: slot'' := List.mem_cons_of_mem _ (List.mem_cons_self _ _)
          rcases h4 _ (List.mem_cons_self _ _) a ha b hb hab with hn | hn
          · exact hn (hclash a (hsub a ha) b (hsub b hb) hab)
          · exact hn (hclash b (hsub b hb) a (hsub a ha) (Ne.symm hab))

end Original

end Timetable

/-! ## The eager program: no timetable is found twice -/

namespace Timetable.Original

theorem extends_of_reach (constr : Constr) {s f : PartSol} (h : Reach constr s f) :
    Extends s f := by
  induction h with
  | refl s => exact Or.inl ⟨rfl, rfl, [], rfl⟩
  | step s s' f hnot hmem _ ih =>
    by_cases hslot : s._partSlot.isFinished constr = true
    · rw [PartSol.refine_of_finished s constr hslot, List.mem_singleton] at hmem
      subst hmem
      rcases ih with ⟨_, h2, _⟩ | ⟨slots, pre, h⟩
      · exact Or.inr ⟨[], [], by simpa [PartSol.new3] using h2⟩
      · refine Or.inr ⟨slots ++ [pre], [], ?_⟩
        simpa [PartSol.new3, PartSlot.new] using h
    · have hslot' : s._partSlot.isFinished constr = false := by simpa using hslot
      rw [PartSol.refine_of_not_finished s constr hslot', List.mem_map] at hmem
      obtain ⟨p, _, rfl⟩ := hmem
      rcases ih with ⟨h1, h2, pre, h3⟩ | ⟨slots, pre, h⟩
      · exact Or.inl ⟨h1, h2, pre ++ [p.1], by simpa [PartSol.place] using h3⟩
      · exact Or.inr ⟨slots, pre ++ [p.1], by simpa [PartSol.place] using h⟩

/-- The tables found below the successor that places `p.1` hold `p.1` right in front
of the talks already placed, in the slot right in front of the finished slots. -/
theorem table_of_place (constr : Constr) (s : PartSol) (hnot : s.isFinished constr = false)
    (p : Talk × List Talk) {fuel : Nat} {r : List TimeTable}
    (h : generate constr fuel (s.place constr p) = some r) (t : TimeTable) (ht : t ∈ r) :
    ∃ slots pre, t = slots ++ (pre ++ p.1 :: s._partSlot._talksInSlot) :: s._tableSoFar := by
  obtain ⟨f, hreach, hfin, hsol⟩ := generate_sound constr fuel _ r h t ht
  rcases extends_of_reach constr hreach with ⟨h1, _, _⟩ | ⟨slots, pre, h2⟩
  · exfalso
    have : s.isFinished constr = true := by
      simpa [PartSol.isFinished, PartSol.place, h1] using hfin
    rw [hnot] at this
    cases this
  · exact ⟨slots, pre, by rw [← hsol]; simpa [PartSol.place, PartSol.getSolution] using h2⟩

theorem place_results_disjoint (constr : Constr) (s : PartSol)
    (hnot : s.isFinished constr = false) (p q : Talk × List Talk) (hne : p.1 ≠ q.1)
    {fuel : Nat} {r1 r2 : List TimeTable}
    (h1 : generate constr fuel (s.place constr p) = some r1)
    (h2 : generate constr fuel (s.place constr q) = some r2) : List.Disjoint r1 r2 := by
  intro t ht1 ht2
  obtain ⟨slots1, pre1, e1⟩ := table_of_place constr s hnot p h1 t ht1
  obtain ⟨slots2, pre2, e2⟩ := table_of_place constr s hnot q h2 t ht2
  rw [e1] at e2
  have h3 := (List.append_inj' e2 (by simp)).2
  simp only [List.cons.injEq, and_true] at h3
  have h4 := (List.append_inj' h3 (by simp)).2
  simp only [List.cons.injEq, and_true] at h4
  exact hne h4

theorem nodupInv_init (allTalks : TalkList) (hnd : allTalks.Nodup) :
    NodupInv (PartSol.new allTalks) :=
  ⟨hnd, hnd⟩

theorem nodupInv_refine (constr : Constr) (s : PartSol) (hs : NodupInv s)
    (s' : PartSol) (hs' : s' ∈ s.refine constr) : NodupInv s' := by
  obtain ⟨h1, h2⟩ := hs
  by_cases hslot : s._partSlot.isFinished constr = true
  · rw [PartSol.refine_of_finished s constr hslot, List.mem_singleton] at hs'
    subst hs'
    exact ⟨h2, h2⟩
  · have hslot' : s._partSlot.isFinished constr = false := by simpa using hslot
    rw [PartSol.refine_of_not_finished s constr hslot', List.mem_map] at hs'
    obtain ⟨p, hp, rfl⟩ := hs'
    refine ⟨?_, ?_⟩
    · have hp2 : p.2.Nodup := ((selects_perm_erase hp).nodup_iff).2 (h1.erase p.1)
      exact hp2.filter _
    · exact h2.erase p.1

/-- From a state with duplicate-free eligible and remaining talks, `generate`
returns no timetable twice. -/
theorem generate_nodup (constr : Constr) :
    ∀ (fuel : Nat) (s : PartSol) (res : List TimeTable), NodupInv s →
      generate constr fuel s = some res → res.Nodup := by
  intro fuel
  induction fuel with
  | zero => intro s res _ h; simp [generate_zero] at h
  | succ fuel ih =>
    intro s res hinv h
    rw [generate_succ] at h
    by_cases hfin : s.isFinished constr = true
    · rw [if_pos hfin] at h
      obtain rfl := Option.some.inj h
      exact List.nodup_singleton _
    · rw [if_neg hfin] at h
      have hnot : s.isFinished constr = false := by simpa using hfin
      obtain ⟨rs, hrs, rfl⟩ := Option.map_eq_some'.1 h
      have hmap := (allSome_eq_some_iff _ _).1 hrs
      rw [List.nodup_flatten]
      constructor
      · intro r hr
        have hsome : some r ∈ (s.refine constr).map (generate constr fuel) := by
          rw [hmap]; exact List.mem_map_of_mem _ hr
        obtain ⟨s', hs', hgen⟩ := List.mem_map.1 hsome
        exact ih s' r (nodupInv_refine constr s hinv s' hs') hgen
      · have hpw : ((s.refine constr).map (generate constr fuel)).Pairwise
            (fun o1 o2 => ∀ r1 r2, o1 = some r1 → o2 = some r2 → List.Disjoint r1 r2) := by
          by_cases hslot : s._partSlot.isFinished constr = true
          · rw [PartSol.refine_of_finished s constr hslot]
            exact List.pairwise_singleton _ _
          · have hslot' : s._partSlot.isFinished constr = false := by simpa using hslot
            rw [PartSol.refine_of_not_finished s constr hslot', List.map_map, List.pairwise_map]
            have hfst : (selects s._partSlot._talksForSlot).Pairwise
                (fun p q => p.1 ≠ q.1) := by
              have h1 := hinv.1
              rw [← selects_map_fst s._partSlot._talksForSlot] at h1
              exact List.pairwise_map.1 h1
            refine hfst.imp ?_
            intro p q hpq r1 r2 h1 h2
            exact place_results_disjoint constr s hnot p q hpq h1 h2
        rw [hmap, List.pairwise_map] at hpw
        exact hpw.imp (fun hab => hab _ _ rfl rfl)

end Timetable.Original

/-! ## The selections of a list -/

namespace Timetable.Original

/-- The pair that `selAccum` builds for position `i` of the right list: the element
at that position, and the elements before it in reverse order, then the left list,
then the elements after it. -/
theorem selAccum_getElem_opt {α : Type} (left right : List α) (i : Nat) (h : i < right.length) :
    (selAccum left right)[i]? =
      some (right[i], (right.take i).reverse ++ left ++ right.drop (i + 1)) := by
  induction right generalizing left i with
  | nil => simp at h
  | cons x xs ih =>
    cases i with
    | zero => simp [selAccum, concat]
    | succ i =>
      have h' : i < xs.length := by simpa using h
      simp only [selAccum, List.getElem?_cons_succ, ih (x :: left) i h', List.getElem_cons_succ,
        List.take_succ_cons, List.reverse_cons, List.drop_succ_cons, List.append_assoc,
        List.singleton_append]

theorem selAccum_length {α : Type} (left right : List α) :
    (selAccum left right).length = right.length := by
  have h := congrArg List.length (selAccum_map_fst left right)
  simpa using h

end Timetable.Original



/-! ## The range of the lazy count, and capacity -/

namespace Timetable

/-- The count that `timeTable` of the lazy program returns is a value of `int`. -/
theorem lazy_timeTable_le_int_max {fuel : Nat} {persons : Persons} {talks : TalkList}
    {maxTracks maxSlots : Int} {n : Int}
    (h : Lazy.timeTable fuel persons talks maxTracks maxSlots false = some n) :
    n ≤ 2147483647 := by
  rw [lazy_timeTable_eq_toOriginal] at h
  obtain ⟨res, _, rfl⟩ := Option.map_eq_some'.1 h
  have := (wrapInt_fits (res.length : Int)).2
  omega

/-- With duplicate-free talk lists of the people, the count of the lazy program is
the size of the vector of the eager program whenever that size is below `2^31`. -/
theorem lazy_count_eq_size_of_fits (persons : Persons) (talks : TalkList)
    (maxTracks maxSlots : Int) (hpers : ∀ person ∈ persons, person._talks.Nodup)
    {fuel fuel' : Nat} {n : Int} {res : List TimeTable}
    (hn : Lazy.timeTable fuel persons talks maxTracks maxSlots false = some n)
    (hres : Original.timeTable fuel' persons talks maxTracks maxSlots false = some res)
    (hfit : (res.length : Int) < 2147483648) : n = (res.length : Int) := by
  rw [lazy_timeTable_eq_length persons talks maxTracks maxSlots hpers] at hn
  obtain ⟨res0, hres0, rfl⟩ := Option.map_eq_some'.1 hn
  have h1 : Original.generate (Original.Constr.new maxSlots maxTracks persons) fuel
      (Original.PartSol.new talks) = some res0 := by
    simpa [Original.timeTable] using hres0
  have h2 : Original.generate (Original.Constr.new maxSlots maxTracks persons) fuel'
      (Original.PartSol.new talks) = some res := by
    simpa [Original.timeTable] using hres
  rw [Original.generate_functional _ h1 h2]
  exact wrapInt_of_fits (by omega) hfit

/-- Without people, on a talk list of `n = maxSlots * maxTracks` talks, the count of
the lazy program is `n!` whenever `n! < 2^31`. -/
theorem lazy_count_eq_factorial_of_fits (talks : TalkList) (maxTracks maxSlots : Int)
    (hms : 0 ≤ maxSlots) (hmt : 0 ≤ maxTracks)
    (hlen : (talks.length : Int) = maxSlots * maxTracks) {fuel : Nat} {n : Int}
    (hn : Lazy.timeTable fuel [] talks maxTracks maxSlots false = some n)
    (hfit : (talks.length.factorial : Int) < 2147483648) :
    n = (talks.length.factorial : Int) := by
  rw [lazy_timeTable_eq_length [] talks maxTracks maxSlots (by simp)] at hn
  obtain ⟨res, hres, rfl⟩ := Option.map_eq_some'.1 hn
  have h := Original.generate_new_length_factorial [] (by simp) talks maxTracks maxSlots hms hmt
    hlen (by simpa [Original.timeTable] using hres)
  rw [h]
  exact wrapInt_of_fits (by omega) hfit

namespace Original

/-- Without people the eager search finds a timetable as soon as the talk list has
at least `maxSlots * maxTracks` talks. -/
theorem generate_new_ne_nil_no_people (talks : TalkList) (maxTracks maxSlots : Int)
    (hms : 0 ≤ maxSlots) (hmt : 0 ≤ maxTracks)
    (hcap : maxSlots * maxTracks ≤ (talks.length : Int)) {fuel : Nat} {res : List TimeTable}
    (h : generate (Constr.new maxSlots maxTracks []) fuel (PartSol.new talks) = some res) :
    res ≠ [] := by
  have hc := count_no_clash (Constr.new maxSlots maxTracks [])
    (fun t => by
      ext b
      simp only [Finset.not_mem_empty, iff_false]
      intro hb
      obtain ⟨person, hperson, _, _⟩ := mem_of_mem_clashesWith hb
      simp at hperson)
    hmt fuel _ res (List.Perm.refl _) hms (le_refl _) hmt h
  intro hnil
  rw [hnil, List.length_nil] at hc
  have hlt := Nat.descFactorial_eq_zero_iff_lt.1 hc.symm
  have hneed : (PartSol.new talks).needed (Constr.new maxSlots maxTracks [])
      = (maxSlots * maxTracks).toNat := by
    simp [PartSol.needed, PartSol.new, PartSlot.new, Constr.new]
  rw [hneed] at hlt
  simp only [PartSol.new] at hlt
  have h0 : 0 ≤ maxSlots * maxTracks := mul_nonneg hms hmt
  omega

end Original

end Timetable

namespace Timetable

end Timetable
/-! ## The claims -/

namespace Timetable

/-- C1: completeness of the eager search.  For every people list, talk list,
`maxTracks` and `maxSlots`, every table of exactly `maxSlots` slots, each of exactly
`maxTracks` talks, whose talks are pairwise distinct members of the talk list and in
which no two talks of one slot occur together in a person's talk list, is an element
of the result of `timeTable(persons, talks, maxTracks, maxSlots, false)`, and that
call returns.  (That the talk list is duplicate-free is not needed; `maxSlots >= 0`
and `maxTracks >= 0` follow from the shape of the table.) -/
theorem C1_eager_search_complete (persons : Persons) (talks : TalkList)
    (maxTracks maxSlots : Int) (table : TimeTable)
    (hlen : (table.length : Int) = maxSlots)
    (hfull : ∀ slot ∈ table, (slot.length : Int) = maxTracks)
    (hnd : table.flatten.Nodup)
    (hmem : ∀ t ∈ table.flatten, t ∈ talks)
    (hclash : ∀ slot ∈ table, ∀ a ∈ slot, ∀ b ∈ slot, a ≠ b →
      ∀ person ∈ persons, ¬ (a ∈ person._talks ∧ b ∈ person._talks)) :
    (∃ fuel res, Original.timeTable fuel persons talks maxTracks maxSlots false = some res) ∧
      ∀ fuel res, Original.timeTable fuel persons talks maxTracks maxSlots false = some res →
        table ∈ res := by
  refine ⟨Original.timeTable_terminates persons talks maxTracks maxSlots false
    (by rw [← hlen]; exact Int.natCast_nonneg _), ?_⟩
  intro fuel res hres
  obtain ⟨f, hreach, hfin, hsol⟩ :=
    Original.reach_table persons talks maxTracks maxSlots table hlen hfull hnd hmem hclash
  have h := Original.generate_complete _ hreach hfin fuel res (by simpa [Original.timeTable] using hres)
  rwa [hsol] at h

/-- Witness of C1 on the input of `test()`: the table `[[4, 2], [3, 1]]` is found. -/
theorem C1_eager_search_complete_witness :
    (∃ fuel res, Original.timeTable fuel
        [⟨"P", [1, 2]⟩, ⟨"Q", [2, 3]⟩, ⟨"R", [3, 4]⟩] [1, 2, 3, 4] 2 2 false = some res) ∧
      ∀ fuel res, Original.timeTable fuel
        [⟨"P", [1, 2]⟩, ⟨"Q", [2, 3]⟩, ⟨"R", [3, 4]⟩] [1, 2, 3, 4] 2 2 false = some res →
        [[4, 2], [3, 1]] ∈ res :=
  C1_eager_search_complete [⟨"P", [1, 2]⟩, ⟨"Q", [2, 3]⟩, ⟨"R", [3, 4]⟩] [1, 2, 3, 4] 2 2
    [[4, 2], [3, 1]] (by decide) (by decide) (by decide) (by decide) (by decide)

/-- C2: clash invariant of the output.  For every people list, talk list, `maxTracks`
and `maxSlots >= 0`, `timeTable` of the eager program returns (sequential or
parallel), and in every timetable it returns no slot contains two distinct talks
that both occur in the talk list of one person. -/
theorem C2_no_clash_in_slot (persons : Persons) (talks : TalkList)
    (maxTracks maxSlots : Int) (isPar : Bool) (hms : 0 ≤ maxSlots) :
    (∃ fuel res, Original.timeTable fuel persons talks maxTracks maxSlots isPar = some res) ∧
      ∀ fuel res, Original.timeTable fuel persons talks maxTracks maxSlots isPar = some res →
        ∀ table ∈ res, ∀ slot ∈ table, ∀ a ∈ slot, ∀ b ∈ slot, a ≠ b →
          ∀ person ∈ persons, ¬ (a ∈ person._talks ∧ b ∈ person._talks) := by
  refine ⟨Original.timeTable_terminates persons talks maxTracks maxSlots isPar hms, ?_⟩
  intro fuel res hres table htable slot hslot
  obtain ⟨res0, hres0, hperm⟩ := Original.timeTable_eq_some hres
  obtain ⟨_, _, _, h⟩ := Original.generate_new_props _ talks hres0 table (hperm.subset htable)
  exact Original.clashFree_persons (h slot hslot)

/-- Witness of C2 on the input of `test()`. -/
theorem C2_no_clash_in_slot_witness :
    (0 : Int) ≤ 2 ∧
      ((∃ fuel res, Original.timeTable fuel
          [⟨"P", [1, 2]⟩, ⟨"Q", [2, 3]⟩, ⟨"R", [3, 4]⟩] [1, 2, 3, 4] 2 2 false = some res) ∧
        ∀ fuel res, Original.timeTable fuel
          [⟨"P", [1, 2]⟩, ⟨"Q", [2, 3]⟩, ⟨"R", [3, 4]⟩] [1, 2, 3, 4] 2 2 false = some res →
          ∀ table ∈ res, ∀ slot ∈ table, ∀ a ∈ slot, ∀ b ∈ slot, a ≠ b →
            ∀ person ∈ ([⟨"P", [1, 2]⟩, ⟨"Q", [2, 3]⟩, ⟨"R", [3, 4]⟩] : Persons),
              ¬ (a ∈ person._talks ∧ b ∈ person._talks)) :=
  ⟨by decide,
    C2_no_clash_in_slot [⟨"P", [1, 2]⟩, ⟨"Q", [2, 3]⟩, ⟨"R", [3, 4]⟩] [1, 2, 3, 4] 2 2 false
      (by decide)⟩

/-- C3 as stated fails: with no person, the talks `[1, 2]`, one track and one slot,
`timeTable` returns the timetables `[[1]]` and `[[2]]`, and the talks of `[[1]]`
are not the talk list (talk `2` is missing). -/
theorem C3_coverage_counterexample :
    Original.timeTable 4 [] [1, 2] 1 1 false = some [[[1]], [[2]]] ∧
      ¬ ([[1]] : TimeTable).flatten.Perm [1, 2] := by
  refine ⟨by decide, ?_⟩
  intro h
  exact absurd h.length_eq (by decide)

/-- C3, amended: for every input with `maxSlots >= 0`, `timeTable` of the eager
program returns, and in every timetable it returns the talks over all slots are
talks of the input talk list, none more often than in the talk list (the multiset
of scheduled talks is contained in the multiset of the talk list); the two
multisets are equal exactly when the talk list has `maxSlots * maxTracks` talks. -/
theorem C3_coverage_amended (persons : Persons) (talks : TalkList)
    (maxTracks maxSlots : Int) (isPar : Bool) (hms : 0 ≤ maxSlots) :
    (∃ fuel res, Original.timeTable fuel persons talks maxTracks maxSlots isPar = some res) ∧
      ∀ fuel res, Original.timeTable fuel persons talks maxTracks maxSlots isPar = some res →
        ∀ table ∈ res, table.flatten.Subperm talks ∧
          (table.flatten.Perm talks ↔ (talks.length : Int) = maxSlots * maxTracks) := by
  refine ⟨Original.timeTable_terminates persons talks maxTracks maxSlots isPar hms, ?_⟩
  intro fuel res hres table htable
  obtain ⟨res0, hres0, hperm⟩ := Original.timeTable_eq_some hres
  obtain ⟨_, _, hsub, _⟩ := Original.generate_new_props _ talks hres0 table (hperm.subset htable)
  have hlen := Original.generate_new_length _ talks hres0 table (hperm.subset htable)
  simp only [Original.Constr.new] at hlen
  refine ⟨hsub, ?_, ?_⟩
  · intro hp
    rw [← hlen, hp.length_eq]
  · intro hl
    refine hsub.perm_of_length_le ?_
    have : (talks.length : Int) = table.flatten.length := by rw [hl, hlen]
    omega

/-- Witness of the amended C3 on the input of `test()`. -/
theorem C3_coverage_amended_witness :
    (0 : Int) ≤ 2 ∧
      ((∃ fuel res, Original.timeTable fuel
          [⟨"P", [1, 2]⟩, ⟨"Q", [2, 3]⟩, ⟨"R", [3, 4]⟩] [1, 2, 3, 4] 2 2 false = some res) ∧
        ∀ fuel res, Original.timeTable fuel
          [⟨"P", [1, 2]⟩, ⟨"Q", [2, 3]⟩, ⟨"R", [3, 4]⟩] [1, 2, 3, 4] 2 2 false = some res →
          ∀ table ∈ res, table.flatten.Subperm [1, 2, 3, 4] ∧
            (table.flatten.Perm [1, 2, 3, 4] ↔
              (([1, 2, 3, 4] : TalkList).length : Int) = 2 * 2)) :=
  ⟨by decide,
    C3_coverage_amended [⟨"P", [1, 2]⟩, ⟨"Q", [2, 3]⟩, ⟨"R", [3, 4]⟩] [1, 2, 3, 4] 2 2 false
      (by decide)⟩

/-- C4: shape of the output.  For every input with `maxSlots >= 0`, `timeTable` of
the eager program returns, every timetable it returns has exactly `maxSlots` slots,
and no slot of it contains more than `maxTracks` talks. -/
theorem C4_output_shape (persons : Persons) (talks : TalkList)
    (maxTracks maxSlots : Int) (isPar : Bool) (hms : 0 ≤ maxSlots) :
    (∃ fuel res, Original.timeTable fuel persons talks maxTracks maxSlots isPar = some res) ∧
      ∀ fuel res, Original.timeTable fuel persons talks maxTracks maxSlots isPar = some res →
        ∀ table ∈ res, (table.length : Int) = maxSlots ∧
          ∀ slot ∈ table, (slot.length : Int) ≤ maxTracks := by
  refine ⟨Original.timeTable_terminates persons talks maxTracks maxSlots isPar hms, ?_⟩
  intro fuel res hres table htable
  obtain ⟨res0, hres0, hperm⟩ := Original.timeTable_eq_some hres
  obtain ⟨h1, h2, _, _⟩ := Original.generate_new_props _ talks hres0 table (hperm.subset htable)
  exact ⟨h1, fun slot hslot => le_of_eq (h2 slot hslot)⟩

/-- Witness of C4 on the input of `test()`. -/
theorem C4_output_shape_witness :
    (0 : Int) ≤ 2 ∧
      ((∃ fuel res, Original.timeTable fuel
          [⟨"P", [1, 2]⟩, ⟨"Q", [2, 3]⟩, ⟨"R", [3, 4]⟩] [1, 2, 3, 4] 2 2 false = some res) ∧
        ∀ fuel res, Original.timeTable fuel
          [⟨"P", [1, 2]⟩, ⟨"Q", [2, 3]⟩, ⟨"R", [3, 4]⟩] [1, 2, 3, 4] 2 2 false = some res →
          ∀ table ∈ res, (table.length : Int) = 2 ∧
            ∀ slot ∈ table, (slot.length : Int) ≤ 2) :=
  ⟨by decide,
    C4_output_shape [⟨"P", [1, 2]⟩, ⟨"Q", [2, 3]⟩, ⟨"R", [3, 4]⟩] [1, 2, 3, 4] 2 2 false
      (by decide)⟩

end Timetable

namespace Timetable

/-- C5 fails on the code: the lazy program counts in an `int`.  On the input
`timeTable({}, [1, ..., 13], 13, 1, false)` the eager program returns a vector of
13! = 6227020800 timetables, more than the largest `int` 2147483647, so whatever
`int` the lazy program returns is not the number of timetables. -/
theorem C5_count_exceeds_int :
    (∃ fuel res, Original.timeTable fuel [] [1, 2, 3, 4, 5, 6, 7, 8, 9, 10, 11, 12, 13] 13 1 false
        = some res) ∧
      ∀ fuel res, Original.timeTable fuel [] [1, 2, 3, 4, 5, 6, 7, 8, 9, 10, 11, 12, 13] 13 1 false
          = some res →
        res.length = 6227020800 ∧
          ∀ fuel' n, Lazy.timeTable fuel' [] [1, 2, 3, 4, 5, 6, 7, 8, 9, 10, 11, 12, 13] 13 1 false
              = some n →
            n ≤ 2147483647 ∧ n ≠ (res.length : Int) := by
  refine ⟨Original.timeTable_terminates [] [1, 2, 3, 4, 5, 6, 7, 8, 9, 10, 11, 12, 13] 13 1 false
    (by decide), ?_⟩
  intro fuel res hres
  have hlen : res.length = 6227020800 := by
    have h := Original.generate_new_length_factorial [] (by simp)
      [1, 2, 3, 4, 5, 6, 7, 8, 9, 10, 11, 12, 13] 13 1 (by decide) (by decide) (by decide)
      (by simpa [Original.timeTable] using hres)
    rw [h]
    decide
  refine ⟨hlen, ?_⟩
  intro fuel' n hn
  have hle := lazy_timeTable_le_int_max hn
  refine ⟨hle, ?_⟩
  rw [hlen]
  intro h
  rw [h] at hle
  exact absurd hle (by decide)

/-- C6: the parallel driver agrees with the sequential driver up to reordering, at
every depth, each `std::async` task taken as the value it returns.  For every depth
`d`, every constraint and every state: `generatePar` of the eager program returns
exactly when `generate` does, and then its result is a permutation of the result of
`generate`; at depth `0` it is `generate`; `generatePar` of the lazy program is
`generate` of the lazy program, so it returns the same count; and both `generate`
do return from a state whose slot number is at most `maxSlots`. -/
theorem C6_parallel_agrees_up_to_order (d : Int) :
    (∀ (constr : Original.Constr) (part : Original.PartSol) (fuel : Nat),
        (Original.generate constr fuel part = none →
          Original.generatePar constr fuel d part = none) ∧
        ∀ res, Original.generate constr fuel part = some res →
          ∃ res', Original.generatePar constr fuel d part = some res' ∧ res'.Perm res) ∧
      (∀ (constr : Original.Constr) (part : Original.PartSol) (fuel : Nat),
        Original.generatePar constr fuel 0 part = Original.generate constr fuel part) ∧
      (∀ (constr : Lazy.Constr) (part : Lazy.PartSlot) (fuel : Nat),
        Lazy.generatePar constr fuel d part = Lazy.generate constr fuel part) ∧
      (∀ (constr : Original.Constr) (part : Original.PartSol),
        part._curSlotNo ≤ constr._maxSlots →
          ∃ fuel res, Original.generate constr fuel part = some res) ∧
      (∀ (constr : Lazy.Constr) (part : Lazy.PartSlot),
        part._partSol._curSlotNo ≤ constr._maxSlots →
          ∃ fuel n, Lazy.generate constr fuel part = some n) := by
  refine ⟨fun constr part fuel => Original.generatePar_perm_generate constr fuel d part, ?_,
    fun constr part fuel => Lazy.generatePar_eq_generate constr fuel d part, ?_,
    fun constr part hle => Lazy.lazy_generate_terminates constr part hle⟩
  · intro constr part fuel
    cases fuel with
    | zero => rfl
    | succ fuel => rw [Original.generatePar_succ, if_pos rfl]
  · intro constr part hle
    have h := Original.generate_terminates constr (part.measure constr + 1) part hle
      (Nat.lt_succ_self _)
    obtain ⟨res, hres⟩ := Option.isSome_iff_exists.1 h
    exact ⟨_, res, hres⟩

/-- Witness of C6: at depth 1, from the initial state of the talks `[1, 2]` with one
track, one slot and no clash, the parallel driver returns a permutation of the
result `[[[1]], [[2]]]` of the sequential driver. -/
theorem C6_parallel_agrees_up_to_order_witness :
    ∃ res', Original.generatePar (Original.Constr.new 1 1 []) 4 1 (Original.PartSol.new [1, 2])
        = some res' ∧ res'.Perm [[[1]], [[2]]] :=
  ((C6_parallel_agrees_up_to_order 1).1 (Original.Constr.new 1 1 []) (Original.PartSol.new [1, 2])
    4).2 [[[1]], [[2]]] (by decide)

/-- C7 fails on the code: on the input `timeTable({}, [1, 2], 1, 1, isPar)` the
parallel driver (`isPar = true`) returns the timetables `[[2]]`, `[[1]]` in this
order, and the sequential driver returns `[[1]]`, `[[2]]`; on the input of `test()`
the two drivers return the same eight timetables in different orders.
`when_all_vec` of `OriginalTimetable/Timetable.cpp` hands the results over in the
reverse of the successor order, `when_all_vec` of `Lib/Futures.h` keeps the order. -/
theorem C7_parallel_order_reversed :
    Original.timeTable 4 [] [1, 2] 1 1 true = some [[[2]], [[1]]] ∧
      Original.timeTable 4 [] [1, 2] 1 1 false = some [[[1]], [[2]]] ∧
      Original.timeTable 8 [⟨"P", [1, 2]⟩, ⟨"Q", [2, 3]⟩, ⟨"R", [3, 4]⟩] [1, 2, 3, 4] 2 2 true =
        some [[[3, 1], [2, 4]], [[1, 3], [2, 4]], [[4, 2], [1, 3]], [[2, 4], [1, 3]],
          [[3, 1], [4, 2]], [[1, 3], [4, 2]], [[4, 2], [3, 1]], [[2, 4], [3, 1]]] ∧
      Original.timeTable 8 [⟨"P", [1, 2]⟩, ⟨"Q", [2, 3]⟩, ⟨"R", [3, 4]⟩] [1, 2, 3, 4] 2 2 false =
        some [[[4, 2], [3, 1]], [[2, 4], [3, 1]], [[3, 1], [4, 2]], [[1, 3], [4, 2]],
          [[4, 2], [1, 3]], [[2, 4], [1, 3]], [[3, 1], [2, 4]], [[1, 3], [2, 4]]] ∧
      Original.when_all_vec [1, 2, 3] = [3, 2, 1] ∧
      Lazy.when_all_vec [1, 2, 3] = [1, 2, 3] := by
  decide

/-- C8 as stated fails: with no person, the talks `[1, 2]`, one track and one slot
(two talks, capacity one) the eager program returns two timetables and the lazy
program the count 2. -/
theorem C8_over_capacity_counterexample :
    Original.timeTable 4 [] [1, 2] 1 1 false = some [[[1]], [[2]]] ∧
      Lazy.timeTable 4 [] [1, 2] 1 1 false = some 2 :=
  ⟨by decide, by decide⟩

/-- C8, amended: for every people list, talk list, `maxTracks` and `maxSlots >= 0`
both programs return without an error; every timetable the eager program returns
holds exactly `maxSlots * maxTracks` talks, all of them talks of the talk list, so
on an over-capacity talk list every timetable found leaves talks out, and the
result is not forced to be empty: with no people and `maxTracks >= 0` it is not
empty as soon as the talk list has at least `maxSlots * maxTracks` talks; and a
talk list with fewer than `maxSlots * maxTracks` talks yields zero solutions: the
eager program returns the empty vector and the lazy program the count 0. -/
theorem C8_capacity_amended (persons : Persons) (talks : TalkList)
    (maxTracks maxSlots : Int) (hms : 0 ≤ maxSlots) :
    (∃ fuel res n, Original.timeTable fuel persons talks maxTracks maxSlots false = some res ∧
        Lazy.timeTable fuel persons talks maxTracks maxSlots false = some n) ∧
      (∀ fuel res, Original.timeTable fuel persons talks maxTracks maxSlots false = some res →
        (∀ table ∈ res, (table.flatten.length : Int) = maxSlots * maxTracks ∧
            table.flatten.Subperm talks) ∧
          ((talks.length : Int) < maxSlots * maxTracks → res = []) ∧
          (persons = [] → 0 ≤ maxTracks → maxSlots * maxTracks ≤ (talks.length : Int) →
            res ≠ [])) ∧
      (∀ fuel n, Lazy.timeTable fuel persons talks maxTracks maxSlots false = some n →
        (talks.length : Int) < maxSlots * maxTracks → n = 0) := by
  have hlazy := lazy_timeTable_eq_toOriginal persons talks maxTracks maxSlots
  refine ⟨?_, ?_, ?_⟩
  · let oc := (Lazy.Constr.new maxSlots maxTracks persons).toOriginal
    let fuel1 := (Original.PartSol.new talks).measure oc + 1
    have h1 := Original.generate_terminates oc fuel1 (Original.PartSol.new talks) hms
      (Nat.lt_succ_self _)
    obtain ⟨res1, hres1⟩ := Option.isSome_iff_exists.1 h1
    let c := Original.Constr.new maxSlots maxTracks persons
    let fuel2 := (Original.PartSol.new talks).measure c + 1
    have h2 := Original.generate_terminates c fuel2 (Original.PartSol.new talks) hms
      (Nat.lt_succ_self _)
    obtain ⟨res2, hres2⟩ := Option.isSome_iff_exists.1 h2
    refine ⟨max fuel1 fuel2, res2, wrapInt (res1.length : Int), ?_, ?_⟩
    · simp only [Original.timeTable, Bool.false_eq_true, if_false]
      exact Original.generate_fuel_le c (le_max_right _ _) hres2
    · rw [hlazy, Original.generate_fuel_le oc (le_max_left _ _) hres1]
      rfl
  · intro fuel res hres
    have h : Original.generate (Original.Constr.new maxSlots maxTracks persons) fuel
        (Original.PartSol.new talks) = some res := by
      simpa [Original.timeTable] using hres
    refine ⟨fun table htable => ⟨Original.generate_new_length _ talks h table htable,
        (Original.generate_new_props _ talks h table htable).2.2.1⟩,
      fun hshort => Original.generate_new_eq_nil _ talks h hshort, ?_⟩
    intro hpers hmt hcap
    subst hpers
    exact Original.generate_new_ne_nil_no_people talks maxTracks maxSlots hms hmt hcap h
  · intro fuel n hn hshort
    rw [hlazy] at hn
    obtain ⟨res, hres, rfl⟩ := Option.map_eq_some'.1 hn
    rw [Original.generate_new_eq_nil _ talks hres hshort]
    exact wrapInt_zero

/-- Witness of the amended C8 on an over-capacity input: two talks, one slot of one
track, no people; the result is not empty and each of its timetables holds one
talk. -/
theorem C8_capacity_amended_witness :
    (0 : Int) ≤ 1 ∧
      ((∃ fuel res n, Original.timeTable fuel [] [1, 2] 1 1 false = some res ∧
          Lazy.timeTable fuel [] [1, 2] 1 1 false = some n) ∧
        ∀ fuel res, Original.timeTable fuel [] [1, 2] 1 1 false = some res →
          (∀ table ∈ res, (table.flatten.length : Int) = 1 * 1 ∧
              table.flatten.Subperm [1, 2]) ∧
            res ≠ []) :=
  have h := C8_capacity_amended [] [1, 2] 1 1 (by decide)
  ⟨by decide, h.1, fun fuel res hres =>
    ⟨(h.2.1 fuel res hres).1, (h.2.1 fuel res hres).2.2 rfl (by decide) (by decide)⟩⟩

/-- C9: characterisation of the clash model.  For every people list whose talk lists
are duplicate-free and all talks `a` and `b`: `b` is a member of `clashesWith(a)` if
and only if `a != b` and some person's talk list contains both, for the `Constr` of
the eager and of the lazy program; in particular, for a talk `t` in no person's
list, `clashesWith(t)` is empty, `t` is a member of no clash set, and `diff` with a
clash set never removes `t` from a list. -/
theorem C9_clash_model (people : List Person) (maxSlots maxTracks : Int)
    (hnd : ∀ person ∈ people, person._talks.Nodup) :
    (∀ a b, b ∈ (Original.Constr.new maxSlots maxTracks people).clashesWith a ↔
        a ≠ b ∧ ∃ person ∈ people, a ∈ person._talks ∧ b ∈ person._talks) ∧
      (∀ a b, b ∈ (Lazy.Constr.new maxSlots maxTracks people).clashesWith a ↔
        a ≠ b ∧ ∃ person ∈ people, a ∈ person._talks ∧ b ∈ person._talks) ∧
      ∀ t, (∀ person ∈ people, t ∉ person._talks) →
        (Original.Constr.new maxSlots maxTracks people).clashesWith t = ∅ ∧
          (Lazy.Constr.new maxSlots maxTracks people).clashesWith t = ∅ ∧
          ∀ a, t ∉ (Original.Constr.new maxSlots maxTracks people).clashesWith a ∧
            t ∉ (Lazy.Constr.new maxSlots maxTracks people).clashesWith a ∧
            ∀ l : TalkList, t ∈ l →
              t ∈ diff l ((Original.Constr.new maxSlots maxTracks people).clashesWith a) ∧
                t ∈ diff l ((Lazy.Constr.new maxSlots maxTracks people).clashesWith a) := by
  have ho := Original.mem_clashesWith_iff_of_nodup maxSlots maxTracks people hnd
  have hl := Lazy.lazy_mem_clashesWith_iff maxSlots maxTracks people
  refine ⟨ho, hl, ?_⟩
  intro t ht
  have h1 : ∀ a, t ∉ (Original.Constr.new maxSlots maxTracks people).clashesWith a := by
    intro a h
    obtain ⟨_, person, hperson, _, hb⟩ := (ho a t).1 h
    exact ht person hperson hb
  have h2 : ∀ a, t ∉ (Lazy.Constr.new maxSlots maxTracks people).clashesWith a := by
    intro a h
    obtain ⟨_, person, hperson, _, hb⟩ := (hl a t).1 h
    exact ht person hperson hb
  refine ⟨?_, ?_, ?_⟩
  · ext b
    simp only [Finset.not_mem_empty, iff_false]
    intro h
    obtain ⟨_, person, hperson, ha, _⟩ := (ho t b).1 h
    exact ht person hperson ha
  · ext b
    simp only [Finset.not_mem_empty, iff_false]
    intro h
    obtain ⟨_, person, hperson, ha, _⟩ := (hl t b).1 h
    exact ht person hperson ha
  · intro a
    refine ⟨h1 a, h2 a, ?_⟩
    intro l htl
    exact ⟨(Original.mem_diff_iff _ _ _).2 ⟨htl, h1 a⟩, (Original.mem_diff_iff _ _ _).2 ⟨htl, h2 a⟩⟩

/-- Witness of C9 on the people of `test()`: talk 2 clashes with talk 1 (person P
attends both) in both programs. -/
theorem C9_clash_model_witness :
    (2 : Talk) ∈ (Original.Constr.new 2 2
        [⟨"P", [1, 2]⟩, ⟨"Q", [2, 3]⟩, ⟨"R", [3, 4]⟩]).clashesWith 1 ∧
      (2 : Talk) ∈ (Lazy.Constr.new 2 2
        [⟨"P", [1, 2]⟩, ⟨"Q", [2, 3]⟩, ⟨"R", [3, 4]⟩]).clashesWith 1 :=
  ⟨((C9_clash_model [⟨"P", [1, 2]⟩, ⟨"Q", [2, 3]⟩, ⟨"R", [3, 4]⟩] 2 2 (by decide)).1 1 2).2
      (by decide),
    ((C9_clash_model [⟨"P", [1, 2]⟩, ⟨"Q", [2, 3]⟩, ⟨"R", [3, 4]⟩] 2 2 (by decide)).2.1 1 2).2
      (by decide)⟩

/-- C10: clash symmetry.  For every people list (any talk lists) and all talks `a`
and `b`, `a` is a member of `clashesWith(b)` if and only if `b` is a member of
`clashesWith(a)`, for the `Constr` of the eager and of the lazy program. -/
theorem C10_clash_symmetric (people : List Person) (maxSlots maxTracks : Int) (a b : Talk) :
    (a ∈ (Original.Constr.new maxSlots maxTracks people).clashesWith b ↔
        b ∈ (Original.Constr.new maxSlots maxTracks people).clashesWith a) ∧
      (a ∈ (Lazy.Constr.new maxSlots maxTracks people).clashesWith b ↔
        b ∈ (Lazy.Constr.new maxSlots maxTracks people).clashesWith a) := by
  have key : ∀ x y : Talk, x ∈ (Original.Constr.new maxSlots maxTracks people).clashesWith y →
      y ∈ (Original.Constr.new maxSlots maxTracks people).clashesWith x := by
    intro x y h
    obtain ⟨person, hperson, l1, l2, h1, hx⟩ := (Original.mem_clashesWith_iff _ _ _ _ _).1 h
    refine (Original.mem_clashesWith_iff _ _ _ _ _).2 ⟨person, hperson, ?_⟩
    rcases hx with hx | hx
    · obtain ⟨m1, m2, rfl⟩ := List.append_of_mem hx
      exact ⟨m1, m2 ++ y :: l2, by simp [h1], Or.inr (by simp)⟩
    · obtain ⟨m1, m2, rfl⟩ := List.append_of_mem hx
      exact ⟨l1 ++ y :: m1, m2, by simp [h1], Or.inl (by simp)⟩
  refine ⟨⟨key a b, key b a⟩, ?_⟩
  rw [Lazy.lazy_mem_clashesWith_iff, Lazy.lazy_mem_clashesWith_iff]
  constructor
  · rintro ⟨hne, person, hperson, h1, h2⟩
    exact ⟨Ne.symm hne, person, hperson, h2, h1⟩
  · rintro ⟨hne, person, hperson, h1, h2⟩
    exact ⟨Ne.symm hne, person, hperson, h2, h1⟩

end Timetable

namespace Timetable

/-- C11: accounting invariant of partial solutions.  For every talk list, every
constraint and every state obtained from the initial state by repeated `refine`
(eager: `PartSol` from `PartSol(allTalks)`; lazy: `PartSlot` from
`PartSlot(PartSol(allTalks))`), the talks of the completed slots, the talks placed
in the current slot and the remaining talks together are a rearrangement of
`allTalks`: every talk is accounted for exactly once.  (That the talk list is
duplicate-free is not needed.) -/
theorem C11_accounting_invariant (allTalks : TalkList) :
    (∀ (constr : Original.Constr) (s : Original.PartSol),
        Original.Refines constr (Original.PartSol.new allTalks) s →
        (s._tableSoFar.flatten ++ s._partSlot._talksInSlot ++ s._remainingTalks).Perm allTalks) ∧
      (∀ (constr : Lazy.Constr) (s : Lazy.PartSlot),
        Lazy.LazyRefines constr (Lazy.PartSlot.new (Lazy.PartSol.new allTalks)) s →
        (s._partSol._tableSoFar.flatten ++ s._talksInSlot ++ s._partSol._remainingTalks).Perm
          allTalks) := by
  constructor
  · intro constr s h
    exact (Original.refines_invariant constr (Original.AccountInv allTalks)
      (Original.accountInv_refine constr allTalks) h (Original.accountInv_init allTalks)).1
  · intro constr s h
    exact (Lazy.lazyRefines_invariant constr (Lazy.LazyAccountInv allTalks)
      (Lazy.lazyAccountInv_refine constr allTalks) h (Lazy.lazyAccountInv_init allTalks)).1

end Timetable

namespace Timetable

/-- C12: scenario 1, the repository's `test()`.  For the people P:[1,2], Q:[2,3],
R:[3,4], the talks [1,2,3,4], two tracks and two slots, `test()` of the eager
program returns exactly 8 timetables, the ones a brute-force enumeration finds, each
made of one slot with the talks {1,3} and one slot with the talks {2,4}; `test()` of
the lazy program returns the count 8. -/
theorem C12_scenario_test :
    Original.test 7 =
        some [[[4, 2], [3, 1]], [[2, 4], [3, 1]], [[3, 1], [4, 2]], [[1, 3], [4, 2]],
          [[4, 2], [1, 3]], [[2, 4], [1, 3]], [[3, 1], [2, 4]], [[1, 3], [2, 4]]] ∧
      Lazy.test 7 = some 8 ∧
      (∀ fuel n, Lazy.test fuel = some n → n = 8) ∧
      ∀ fuel res, Original.test fuel = some res →
        res.length = 8 ∧
          res.Perm (bruteForce [⟨"P", [1, 2]⟩, ⟨"Q", [2, 3]⟩, ⟨"R", [3, 4]⟩] [1, 2, 3, 4] 2 2) ∧
          ∀ table ∈ res, ∃ s1 s2, table = [s1, s2] ∧
            ((s1.Perm [1, 3] ∧ s2.Perm [2, 4]) ∨ (s1.Perm [2, 4] ∧ s2.Perm [1, 3])) := by
  have ho : Original.test 7 =
      some [[[4, 2], [3, 1]], [[2, 4], [3, 1]], [[3, 1], [4, 2]], [[1, 3], [4, 2]],
        [[4, 2], [1, 3]], [[2, 4], [1, 3]], [[3, 1], [2, 4]], [[1, 3], [2, 4]]] := by decide
  have hl : Lazy.test 7 = some 8 := by decide
  refine ⟨ho, hl, ?_, ?_⟩
  · intro fuel n hn
    simp only [Lazy.test, Lazy.timeTable, Bool.false_eq_true, if_false] at hn hl
    exact Lazy.lazy_generate_functional _ hn hl
  · intro fuel res hres
    simp only [Original.test, Original.timeTable, Bool.false_eq_true, if_false] at hres ho
    obtain rfl := Original.generate_functional _ hres ho
    refine ⟨rfl, by decide, ?_⟩
    intro table htable
    simp only [List.mem_cons, List.mem_singleton, List.not_mem_nil, or_false] at htable
    rcases htable with rfl | rfl | rfl | rfl | rfl | rfl | rfl | rfl <;>
      first
      | exact ⟨_, _, rfl, Or.inl ⟨by decide, by decide⟩⟩
      | exact ⟨_, _, rfl, Or.inr ⟨by decide, by decide⟩⟩

/-- C13 fails on the code: the lazy program counts in an `int`.  On the input
`timeTable({}, [1, ..., 13], 13, 1, false)` (`n = 13`) the eager program returns a
vector of `13! = 6227020800` timetables, as the claim says, but `13!` is more than
the largest `int` 2147483647, so whatever `int` the lazy program returns is not
`13!`. -/
theorem C13_factorial_exceeds_int :
    (∃ fuel res, Original.timeTable fuel [] [1, 2, 3, 4, 5, 6, 7, 8, 9, 10, 11, 12, 13] 13 1 false
        = some res) ∧
      (∀ fuel res, Original.timeTable fuel [] [1, 2, 3, 4, 5, 6, 7, 8, 9, 10, 11, 12, 13] 13 1 false
          = some res → res.length = (13 : Nat).factorial) ∧
      (13 : Nat).factorial = 6227020800 ∧
      ∀ fuel n, Lazy.timeTable fuel [] [1, 2, 3, 4, 5, 6, 7, 8, 9, 10, 11, 12, 13] 13 1 false = some n →
        n ≤ 2147483647 ∧ n ≠ ((13 : Nat).factorial : Int) := by
  refine ⟨Original.timeTable_terminates [] [1, 2, 3, 4, 5, 6, 7, 8, 9, 10, 11, 12, 13] 13 1 false
    (by decide), ?_, by decide, ?_⟩
  · intro fuel res hres
    exact Original.generate_new_length_factorial [] (by simp)
      [1, 2, 3, 4, 5, 6, 7, 8, 9, 10, 11, 12, 13] 13 1 (by decide) (by decide) (by decide)
      (by simpa [Original.timeTable] using hres)
  · intro fuel n hn
    have hle := lazy_timeTable_le_int_max hn
    refine ⟨hle, ?_⟩
    intro h
    rw [h] at hle
    exact absurd hle (by decide)

/-- C14: scenario 3.  For every duplicate-free talk list, every people list with a
person whose talk list contains every talk of the talk list, every `maxSlots >= 1`
and every `maxTracks > 1`, both `timeTable` return, the lazy program returns the
count 0 and the eager program an empty vector. -/
theorem C14_person_attends_every_talk (persons : Persons) (talks : TalkList)
    (maxTracks maxSlots : Int) (person : Person)
    (hnd : talks.Nodup) (hperson : person ∈ persons)
    (hall : ∀ t ∈ talks, t ∈ person._talks) (hms : 1 ≤ maxSlots) (hmt : 1 < maxTracks) :
    (∃ fuel n res, Lazy.timeTable fuel persons talks maxTracks maxSlots false = some n ∧
        Original.timeTable fuel persons talks maxTracks maxSlots false = some res) ∧
      (∀ fuel n, Lazy.timeTable fuel persons talks maxTracks maxSlots false = some n → n = 0) ∧
      ∀ fuel res, Original.timeTable fuel persons talks maxTracks maxSlots false = some res →
        res = [] := by
  have hlazy := lazy_timeTable_eq_toOriginal persons talks maxTracks maxSlots
  refine ⟨?_, ?_, ?_⟩
  · let oc := (Lazy.Constr.new maxSlots maxTracks persons).toOriginal
    let fuel1 := (Original.PartSol.new talks).measure oc + 1
    have h1 := Original.generate_terminates oc fuel1 (Original.PartSol.new talks)
      (by show (0 : Int) ≤ maxSlots; omega) (Nat.lt_succ_self _)
    obtain ⟨res1, hres1⟩ := Option.isSome_iff_exists.1 h1
    let c := Original.Constr.new maxSlots maxTracks persons
    let fuel2 := (Original.PartSol.new talks).measure c + 1
    have h2 := Original.generate_terminates c fuel2 (Original.PartSol.new talks)
      (by show (0 : Int) ≤ maxSlots; omega) (Nat.lt_succ_self _)
    obtain ⟨res2, hres2⟩ := Option.isSome_iff_exists.1 h2
    refine ⟨max fuel1 fuel2, wrapInt (res1.length : Int), res2, ?_, ?_⟩
    · rw [hlazy, Original.generate_fuel_le oc (le_max_left _ _) hres1]
      rfl
    · simp only [Original.timeTable, Bool.false_eq_true, if_false]
      exact Original.generate_fuel_le c (le_max_right _ _) hres2
  · intro fuel n hn
    rw [hlazy] at hn
    obtain ⟨res, hres, rfl⟩ := Option.map_eq_some'.1 hn
    rw [Original.generate_new_eq_nil_of_all_clash _ talks hnd ?_ hms hmt hres]
    · exact wrapInt_zero
    · intro a ha b hb hab
      exact (Lazy.lazy_mem_clashesWith_iff maxSlots maxTracks persons a b).2
        ⟨hab, person, hperson, hall a ha, hall b hb⟩
  · intro fuel res hres
    simp only [Original.timeTable, Bool.false_eq_true, if_false] at hres
    refine Original.generate_new_eq_nil_of_all_clash _ talks hnd ?_ hms hmt hres
    intro a ha b hb hab
    exact Original.mem_clashesWith_of_ne hperson (hall a ha) (hall b hb) hab

/-- Witness of C14: a person who attends the talks 1, 2 and 3, two tracks. -/
theorem C14_person_attends_every_talk_witness :
    (∃ fuel n res, Lazy.timeTable fuel [⟨"P", [1, 2, 3]⟩] [1, 2, 3] 2 1 false = some n ∧
        Original.timeTable fuel [⟨"P", [1, 2, 3]⟩] [1, 2, 3] 2 1 false = some res) ∧
      (∀ fuel n, Lazy.timeTable fuel [⟨"P", [1, 2, 3]⟩] [1, 2, 3] 2 1 false = some n → n = 0) ∧
      ∀ fuel res, Original.timeTable fuel [⟨"P", [1, 2, 3]⟩] [1, 2, 3] 2 1 false = some res →
        res = [] :=
  C14_person_attends_every_talk [⟨"P", [1, 2, 3]⟩] [1, 2, 3] 2 1 ⟨"P", [1, 2, 3]⟩
    (by decide) (List.mem_singleton_self _) (by decide) (by decide) (by decide)

end Timetable

namespace Timetable

/-- C15 as stated fails: `getSolution` has no guard.  The eager state with slot
number 1, table `[[1]]` and remaining talk `2` is not finished for two slots, and
`getSolution` yields its table `[[1]]`; the same for the lazy state with these
fields. -/
theorem C15_getSolution_counterexample :
    (Original.PartSol.new3 1 [[1]] [2]).isFinished (Original.Constr.new 2 1 []) = false ∧
      (Original.PartSol.new3 1 [[1]] [2]).getSolution = [[1]] ∧
      (Lazy.PartSlot.new ⟨1, [2], [[1]]⟩).isFinished (Lazy.Constr.new 2 1 []) = false ∧
      (Lazy.PartSlot.new ⟨1, [2], [[1]]⟩).getSolution = [[1]] := by
  decide

/-- C15, amended: `getSolution` is not guarded by `isFinished`: on every state,
finished or not, `PartSol::getSolution` of the eager program yields the accumulated
table `_tableSoFar` and `PartSlot::getSolution` of the lazy program yields
`_partSol._tableSoFar`, never an error; it is the driver `generate` that asks only
finished states: every table it returns is `getSolution` of a finished state reached
from its argument. -/
theorem C15_getSolution_amended :
    (∀ s : Original.PartSol, s.getSolution = s._tableSoFar) ∧
      (∀ s : Lazy.PartSlot, s.getSolution = s._partSol._tableSoFar) ∧
      ∀ (constr : Original.Constr) (fuel : Nat) (s : Original.PartSol) (res : List TimeTable),
        Original.generate constr fuel s = some res → ∀ t ∈ res,
          ∃ f, Original.Reach constr s f ∧ f.isFinished constr = true ∧ f.getSolution = t :=
  ⟨fun _ => rfl, fun _ => rfl, fun constr fuel s res h t ht =>
    Original.generate_sound constr fuel s res h t ht⟩

/-- C18: termination.  For every people list, talk list, `maxTracks` (any integer)
and `maxSlots >= 0`, `generate` from the initial state returns, in the eager and in
the lazy program; and on the states with slot number at most `maxSlots` every
`refine` step from a state that is not finished strictly decreases the lexicographic
pair (`maxSlots` minus the slot index; 0 for a full slot, otherwise one more than
the length of the eligible list), in both programs. -/
theorem C18_generate_terminates (persons : Persons) (talks : TalkList)
    (maxTracks maxSlots : Int) (hms : 0 ≤ maxSlots) :
    (∃ fuel res, Original.generate (Original.Constr.new maxSlots maxTracks persons) fuel
        (Original.PartSol.new talks) = some res) ∧
      (∃ fuel n, Lazy.generate (Lazy.Constr.new maxSlots maxTracks persons) fuel
        (Lazy.PartSlot.new (Lazy.PartSol.new talks)) = some n) ∧
      (∀ (constr : Original.Constr) (s : Original.PartSol),
        s._curSlotNo ≤ constr._maxSlots → s.isFinished constr = false →
        ∀ s' ∈ s.refine constr, s'._curSlotNo ≤ constr._maxSlots ∧
          Prod.Lex (fun a b : Nat => a < b) (fun a b : Nat => a < b)
            (s'.lexMeasure constr) (s.lexMeasure constr)) ∧
      (∀ (constr : Lazy.Constr) (s : Lazy.PartSlot),
        s._partSol._curSlotNo ≤ constr._maxSlots → s.isFinished constr = false →
        ∀ s' ∈ s.refine constr, s'._partSol._curSlotNo ≤ constr._maxSlots ∧
          Prod.Lex (fun a b : Nat => a < b) (fun a b : Nat => a < b)
            (s'.lexMeasure constr) (s.lexMeasure constr)) := by
  refine ⟨?_, Lazy.lazy_generate_terminates _ _ hms,
    fun constr s => Original.refine_lexMeasure_lt constr s,
    fun constr s => Lazy.lazy_refine_lexMeasure_lt constr s⟩
  have h := Original.generate_terminates (Original.Constr.new maxSlots maxTracks persons)
    ((Original.PartSol.new talks).measure (Original.Constr.new maxSlots maxTracks persons) + 1)
    (Original.PartSol.new talks) hms (Nat.lt_succ_self _)
  obtain ⟨res, hres⟩ := Option.isSome_iff_exists.1 h
  exact ⟨_, res, hres⟩

/-- Witness of C18: a negative `maxTracks` with the people and talks of `test()`. -/
theorem C18_generate_terminates_witness :
    (0 : Int) ≤ 2 ∧
      (∃ fuel res, Original.generate
        (Original.Constr.new 2 (-1) [⟨"P", [1, 2]⟩, ⟨"Q", [2, 3]⟩, ⟨"R", [3, 4]⟩]) fuel
        (Original.PartSol.new [1, 2, 3, 4]) = some res) ∧
      (∃ fuel n, Lazy.generate
        (Lazy.Constr.new 2 (-1) [⟨"P", [1, 2]⟩, ⟨"Q", [2, 3]⟩, ⟨"R", [3, 4]⟩]) fuel
        (Lazy.PartSlot.new (Lazy.PartSol.new [1, 2, 3, 4])) = some n) :=
  ⟨by decide,
    (C18_generate_terminates [⟨"P", [1, 2]⟩, ⟨"Q", [2, 3]⟩, ⟨"R", [3, 4]⟩] [1, 2, 3, 4] (-1) 2
      (by decide)).1,
    (C18_generate_terminates [⟨"P", [1, 2]⟩, ⟨"Q", [2, 3]⟩, ⟨"R", [3, 4]⟩] [1, 2, 3, 4] (-1) 2
      (by decide)).2.1⟩

/-- C19: slots are always full.  For every input with `maxSlots >= 0`, `timeTable` of
the eager program returns, every slot of every timetable it returns contains exactly
`maxTracks` talks, and when the talk list has fewer than `maxSlots * maxTracks`
talks the result is empty. -/
theorem C19_slots_full (persons : Persons) (talks : TalkList)
    (maxTracks maxSlots : Int) (isPar : Bool) (hms : 0 ≤ maxSlots) :
    (∃ fuel res, Original.timeTable fuel persons talks maxTracks maxSlots isPar = some res) ∧
      ∀ fuel res, Original.timeTable fuel persons talks maxTracks maxSlots isPar = some res →
        (∀ table ∈ res, ∀ slot ∈ table, (slot.length : Int) = maxTracks) ∧
          ((talks.length : Int) < maxSlots * maxTracks → res = []) := by
  refine ⟨Original.timeTable_terminates persons talks maxTracks maxSlots isPar hms, ?_⟩
  intro fuel res hres
  obtain ⟨res0, hres0, hperm⟩ := Original.timeTable_eq_some hres
  constructor
  · intro table htable
    exact (Original.generate_new_props _ talks hres0 table (hperm.subset htable)).2.1
  · intro hshort
    have h0 := Original.generate_new_eq_nil _ talks hres0 hshort
    rw [h0] at hperm
    exact hperm.eq_nil

/-- Witness of C19: three talks do not fill two slots of two tracks. -/
theorem C19_slots_full_witness :
    (0 : Int) ≤ 2 ∧
      ((∃ fuel res, Original.timeTable fuel [] [1, 2, 3] 2 2 false = some res) ∧
        ∀ fuel res, Original.timeTable fuel [] [1, 2, 3] 2 2 false = some res →
          (∀ table ∈ res, ∀ slot ∈ table, (slot.length : Int) = 2) ∧
            ((([1, 2, 3] : TalkList).length : Int) < 2 * 2 → res = [])) :=
  ⟨by decide, C19_slots_full [] [1, 2, 3] 2 2 false (by decide)⟩

end Timetable

namespace Timetable

/-- C20: no timetable is reported twice.  For every people list, every
duplicate-free talk list, every `maxTracks` and every `maxSlots >= 0`, `timeTable` of
the eager program returns (sequential or parallel), and the vector it returns
contains pairwise distinct timetables. -/
theorem C20_no_duplicate_timetable (persons : Persons) (talks : TalkList)
    (maxTracks maxSlots : Int) (isPar : Bool) (hnd : talks.Nodup) (hms : 0 ≤ maxSlots) :
    (∃ fuel res, Original.timeTable fuel persons talks maxTracks maxSlots isPar = some res) ∧
      ∀ fuel res, Original.timeTable fuel persons talks maxTracks maxSlots isPar = some res →
        res.Nodup := by
  refine ⟨Original.timeTable_terminates persons talks maxTracks maxSlots isPar hms, ?_⟩
  intro fuel res hres
  obtain ⟨res0, hres0, hperm⟩ := Original.timeTable_eq_some hres
  exact hperm.nodup_iff.2
    (Original.generate_nodup _ fuel _ res0 (Original.nodupInv_init talks hnd) hres0)

/-- Witness of C20 on the input of `test()`. -/
theorem C20_no_duplicate_timetable_witness :
    ([1, 2, 3, 4] : TalkList).Nodup ∧ (0 : Int) ≤ 2 ∧
      ((∃ fuel res, Original.timeTable fuel
          [⟨"P", [1, 2]⟩, ⟨"Q", [2, 3]⟩, ⟨"R", [3, 4]⟩] [1, 2, 3, 4] 2 2 false = some res) ∧
        ∀ fuel res, Original.timeTable fuel
          [⟨"P", [1, 2]⟩, ⟨"Q", [2, 3]⟩, ⟨"R", [3, 4]⟩] [1, 2, 3, 4] 2 2 false = some res →
          res.Nodup) :=
  ⟨by decide, by decide,
    C20_no_duplicate_timetable [⟨"P", [1, 2]⟩, ⟨"Q", [2, 3]⟩, ⟨"R", [3, 4]⟩] [1, 2, 3, 4] 2 2
      false (by decide) (by decide)⟩

end Timetable

namespace Timetable

/-- C21 as stated fails: the rest of a selection is not in the original order.  The
pair of `selects [1, 2, 3]` for the last position is `(3, [2, 1])`, and the list with
that position removed is `[1, 2]`. -/
theorem C21_selects_order_counterexample :
    Original.selects [1, 2, 3] = [(1, [2, 3]), (2, [1, 3]), (3, [2, 1])] ∧
      ([1, 2, 3] : List Nat).eraseIdx 2 = [1, 2] ∧ ([2, 1] : List Nat) ≠ [1, 2] := by
  decide

/-- C21, amended: `selects` returns (element, rest of elements) pairs.  For every
list `lst`, `selects(lst)` has exactly one pair per position `i` of `lst`, in
position order, whose first component is the `i`-th element of `lst` and whose
second component is `left ++ right.tail` for the lists of `selAccum` at that
position: the elements before position `i` in reverse order followed by the elements
after position `i` in their original order, a rearrangement of `lst` with the
element at position `i` removed. -/
theorem C21_selects_amended {α : Type} (lst : List α) :
    (Original.selects lst).length = lst.length ∧
      ∀ (i : Nat) (h : i < lst.length),
        (Original.selects lst)[i]? = some (lst[i], (lst.take i).reverse ++ lst.drop (i + 1)) ∧
          ((lst.take i).reverse ++ lst.drop (i + 1)).Perm (lst.eraseIdx i) := by
  refine ⟨Original.selAccum_length [] lst, ?_⟩
  intro i h
  constructor
  · have h1 := Original.selAccum_getElem_opt [] lst i h
    simpa [Original.selects] using h1
  · rw [List.eraseIdx_eq_take_drop_succ]
    exact (List.reverse_perm _).append_right _

/-- Witness of the amended C21: position 2 of `[1, 2, 3, 4]`. -/
theorem C21_selects_amended_witness :
    (Original.selects [1, 2, 3, 4])[2]? = some (3, [2, 1, 4]) ∧
      ([2, 1, 4] : List Nat).Perm [1, 2, 4] :=
  ((C21_selects_amended [1, 2, 3, 4]).2 2 (by decide))

end Timetable
